import Mathlib

/-!
Verification of the CRDT core of the repository: the last-writer-wins
register (`src/crdts/llw-register.ts`), the LWW map built from it
(`LWWMap`), and the awareness protocol (`src/y-protocols/awareness.js`)
with its binary wire codec.

JavaScript `Map`s are embedded as functions into `Option`, JSON-like
application state as the inductive `Json`, and the lib0
varint/varstring binary layer as explicit byte lists (`List Nat`).
Machine integers are modelled as `Nat` (clocks and client ids are
non-negative integers well below any overflow boundary in the source).
-/

/-- JSON-like application state values, as produced by `JSON.parse`:
null, booleans, numbers (restricted to integers: the claims under
verification never depend on non-integral numbers), strings, arrays and
objects with insertion-ordered keys. -/
inductive Json where
  | null : Json
  | bool : Bool → Json
  | num : Int → Json
  | str : List Char → Json
  | arr : List Json → Json
  | obj : List (List Char × Json) → Json

/-- JavaScript truthiness of a JSON value: `null`, `false`, `0` and the
empty string are falsy, every array and object is truthy. -/
def jsTruthy : Json → Bool
  | .null => false
  | .bool b => b
  | .num n => n != 0
  | .str s => !s.isEmpty
  | .arr _ => true
  | .obj _ => true

/-- The strict-equality null test `x === null` of the source. -/
def Json.isNull : Json → Bool
  | .null => true
  | _ => false

mutual
/-- Structural deep equality of JSON values, modelling lib0's
`f.equalityDeep` as used by the awareness store.  (Key order of objects
is compared positionally in this model; no claim under verification
depends on the order-insensitivity of the original.) -/
def jsonEq : Json → Json → Bool
  | .null, .null => true
  | .bool a, .bool b => a == b
  | .num a, .num b => a == b
  | .str a, .str b => a == b
  | .arr a, .arr b => jsonEqList a b
  | .obj a, .obj b => jsonEqObj a b
  | _, _ => false

/-- Deep equality on JSON arrays, elementwise. -/
def jsonEqList : List Json → List Json → Bool
  | [], [] => true
  | x :: xt, y :: yt => jsonEq x y && jsonEqList xt yt
  | _, _ => false

/-- Deep equality on JSON objects, entry by entry. -/
def jsonEqObj : List (List Char × Json) → List (List Char × Json) → Bool
  | [], [] => true
  | (k, a) :: as, (k2, b) :: bs => k == k2 && jsonEq a b && jsonEqObj as bs
  | _, _ => false
end

/-! ## The last-writer-wins register (`src/crdts/llw-register.ts`) -/

/-- The versioned state of a register: `IState<T>` of the source.
The source calls the version counter `timestamp`; it is a logical
counter, not wall-clock time. -/
structure IState (α : Type) where
  peer : String
  timestamp : Nat
  value : α
deriving Repr

/-- `LWWRegister<T>`: a register owned by peer `id` holding a versioned
state. -/
structure LWWRegister (α : Type) where
  id : String
  state : IState α
deriving Repr

/-- The `value` getter of the register. -/
def LWWRegister.value {α : Type} (r : LWWRegister α) : α :=
  r.state.value

/-- `LWWRegister.set`: replace the state wholesale with the local
peer as writer and the counter bumped by one. -/
def LWWRegister.set {α : Type} (r : LWWRegister α) (v : α) : LWWRegister α :=
  { r with state := { peer := r.id, timestamp := r.state.timestamp + 1, value := v } }

/-- `LWWRegister.merge`: keep the local state when the local counter is
strictly larger, or when the counters tie and the writers differ;
otherwise adopt the remote state wholesale. -/
def LWWRegister.merge {α : Type} (r : LWWRegister α) (s : IState α) : LWWRegister α :=
  if r.state.timestamp > s.timestamp then r
  else if r.state.timestamp = s.timestamp ∧ s.peer ≠ r.state.peer then r
  else { r with state := s }

/-! ## The LWW map (`LWWMap`)

`LWWMap<T>` maps string keys to `LWWRegister<T | null>`; the `null`
value is the deletion tombstone.  The model instantiates the value type
at `Json` so that the JavaScript truthiness coercions in `get` are
observable; a register value of `none` is the tombstone `null`. -/

/-- The `LWWMap` data: owner id and the key-to-register mapping. -/
structure LWWMap where
  id : String
  data : String → Option (LWWRegister (Option Json))

/-- `LWWMap.get`: the source returns `this.data.get(key)?.value ||
undefined`, so a missing key, a tombstoned key, and any falsy stored
value all come out as `undefined` (here `none`). -/
def LWWMap.get (m : LWWMap) (key : String) : Option Json :=
  match m.data key with
  | none => none
  | some reg =>
    match reg.value with
    | none => none
    | some v => if jsTruthy v then some v else none

/-- `LWWMap.has`: the source returns `this.data.get(key)?.value !==
null`.  For a missing key the optional chain yields `undefined`, and
`undefined !== null` is `true`. -/
def LWWMap.has (m : LWWMap) (key : String) : Bool :=
  match m.data key with
  | none => true
  | some reg => reg.value.isSome

/-- `LWWMap.set`: delegate to the register when the key exists,
otherwise create a register with counter 1. -/
def LWWMap.set (m : LWWMap) (key : String) (v : Json) : LWWMap :=
  match m.data key with
  | some reg =>
    { m with data := fun x => if x = key then some (reg.set (some v)) else m.data x }
  | none =>
    { m with data := fun x =>
        if x = key then some ⟨m.id, { peer := m.id, timestamp := 1, value := some v }⟩
        else m.data x }

/-- `LWWMap.delete`: write the tombstone through the versioned path;
a missing key is left missing. -/
def LWWMap.delete (m : LWWMap) (key : String) : LWWMap :=
  match m.data key with
  | some reg =>
    { m with data := fun x => if x = key then some (reg.set none) else m.data x }
  | none => m

/-- A freshly constructed `LWWMap` with no entries. -/
def freshLWWMap : LWWMap :=
  ⟨"local", fun _ => none⟩

/-- An `LWWMap` holding the (falsy, non-tombstone) value `0` at key
`"k"`. -/
def lwwMapWithZero : LWWMap :=
  ⟨"local",
   fun x =>
     if x = "k" then some ⟨"local", { peer := "local", timestamp := 1, value := some (Json.num 0) }⟩
     else none⟩

/-! ## The awareness store (`src/y-protocols/awareness.js`)

`Awareness` holds per-client ephemeral state keyed by numeric client
id, plus per-client meta information (a logical clock and a wall-clock
`lastUpdated` stamp).  Wall-clock time enters every operation as an
explicit `now : Nat` parameter, modelling `time.getUnixTime()`. -/

/-- Per-client meta information (`MetaClientState` of the source). -/
structure MetaClientState where
  clock : Nat
  lastUpdated : Nat
deriving Repr, DecidableEq

/-- The awareness store: the local client id and the two maps. -/
structure Awareness where
  clientID : Nat
  states : Nat → Option Json
  meta : Nat → Option MetaClientState

/-- `Map.set` on a function-embedded map. -/
def mapSet {α : Type} (m : Nat → Option α) (k : Nat) (v : α) : Nat → Option α :=
  fun x => if x = k then some v else m x

/-- `Map.delete` on a function-embedded map. -/
def mapDelete {α : Type} (m : Nat → Option α) (k : Nat) : Nat → Option α :=
  fun x => if x = k then none else m x

/-- `getLocalState`: the source returns `this.states.get(this.clientID)
|| null`, so a falsy stored state also reads back as `null`. -/
def Awareness.getLocalState (aw : Awareness) : Option Json :=
  match aw.states aw.clientID with
  | some v => if jsTruthy v then some v else none
  | none => none

/-- The clock the store knows for a client: `clientMeta === undefined ?
0 : clientMeta.clock`, exactly the convention `applyAwarenessUpdate`
and `encodeAwarenessUpdate` use.  (`encodeAwarenessUpdate` and
`removeAwarenessStates` dereference the meta entry without a guard and
would throw in JavaScript when it is absent; every theorem that touches
those paths assumes the entry is present, so the default 0 is never
exercised there.) -/
def clockOf (aw : Awareness) (clientID : Nat) : Nat :=
  match aw.meta clientID with
  | some m => m.clock
  | none => 0

/-- The payload carried by the `change`/`update` events: the four
classification lists built by one operation. -/
structure AwarenessUpdateSummary where
  added : List Nat
  updated : List Nat
  filteredUpdated : List Nat
  removed : List Nat
deriving Repr

/-- `setLocalState(state)`: bump (or initialise to 0) the local clock,
stamp `lastUpdated := now`, store or delete the local state, and
classify the transition.  The `change` event fires when `added`,
`filteredUpdated` or `removed` is non-empty; the `update` event always
fires, carrying `added`/`updated`/`removed`. -/
def Awareness.setLocalState (aw : Awareness) (state : Option Json) (now : Nat) :
    Awareness × AwarenessUpdateSummary :=
  let clientID := aw.clientID
  let clock : Nat :=
    match aw.meta clientID with
    | none => 0
    | some m => m.clock + 1
  let prevState := aw.states clientID
  let states' :=
    match state with
    | none => mapDelete aw.states clientID
    | some s => mapSet aw.states clientID s
  let meta' := mapSet aw.meta clientID ⟨clock, now⟩
  let summary : AwarenessUpdateSummary :=
    match state, prevState with
    | none, _ => ⟨[], [], [], [clientID]⟩
    | some _, none => ⟨[clientID], [], [], []⟩
    | some s, some p => ⟨[], [clientID], if jsonEq p s then [] else [clientID], []⟩
  ({ aw with states := states', meta := meta' }, summary)

/-- One iteration of the `removeAwarenessStates` loop: skip clients
with no `states` entry; delete the entry otherwise, and when the local
client deletes itself additionally bump its own meta clock and
timestamp (the source reads `meta.get(clientID).clock` here, which is
present whenever the theorems below apply).  The second component
accumulates the `removed` list for the events. -/
def removeStep (now : Nat) (acc : Awareness × List Nat) (clientID : Nat) :
    Awareness × List Nat :=
  let aw := acc.1
  if (aw.states clientID).isSome then
    let aw' := { aw with states := mapDelete aw.states clientID }
    if clientID = aw.clientID then
      ({ aw' with meta := mapSet aw.meta clientID ⟨clockOf aw clientID + 1, now⟩ },
       acc.2 ++ [clientID])
    else (aw', acc.2 ++ [clientID])
  else acc

/-- `removeAwarenessStates(awareness, clients, origin)`: fold the
removal step over the listed clients; the resulting list is the
`removed` payload of the `change`/`update` events (emitted only when it
is non-empty, tagged with the caller's origin). -/
def removeAwarenessStates (aw : Awareness) (clients : List Nat) (now : Nat) :
    Awareness × List Nat :=
  clients.foldl (removeStep now) (aw, [])

/-- One decoded wire entry: client id, clock, JSON state (`Json.null`
for a removal). -/
abbrev AwarenessEntry := Nat × Nat × Json

/-- The acceptance test of the `applyAwarenessUpdate` loop: the entry
for client `e.1` with clock `e.2.1` and state `e.2.2` wins iff the
locally known clock is behind, or ties while the entry is a removal
and the client currently has a `states` entry. -/
abbrev acceptCond (aw : Awareness) (e : AwarenessEntry) : Prop :=
  clockOf aw e.1 < e.2.1 ∨
    (clockOf aw e.1 = e.2.1 ∧ e.2.2.isNull = true ∧ (aw.states e.1).isSome = true)

/-- The states/meta transition of one iteration of the
`applyAwarenessUpdate` loop.  An accepted removal aimed at the local
client while it has a non-null local state keeps the state and stores
`clock + 1` instead; any other accepted removal deletes the state; an
accepted non-null state is stored.  `meta` is always refreshed on
acceptance; a rejected entry changes nothing. -/
def applyEntryAw (now : Nat) (aw : Awareness) (e : AwarenessEntry) : Awareness :=
  if acceptCond aw e then
    if e.2.2.isNull = true then
      if e.1 = aw.clientID ∧ (aw.getLocalState).isSome = true then
        { aw with meta := mapSet aw.meta e.1 ⟨e.2.1 + 1, now⟩ }
      else
        { aw with
          states := mapDelete aw.states e.1,
          meta := mapSet aw.meta e.1 ⟨e.2.1, now⟩ }
    else
      { aw with
        states := mapSet aw.states e.1 e.2.2,
        meta := mapSet aw.meta e.1 ⟨e.2.1, now⟩ }
  else aw

/-- The store together with the event classification lists accumulated
by `applyAwarenessUpdate` across its loop. -/
structure ApplyAcc where
  aw : Awareness
  added : List Nat
  updated : List Nat
  filteredUpdated : List Nat
  removed : List Nat

/-- One full iteration of the `applyAwarenessUpdate` loop: the
states/meta transition of `applyEntryAw` plus the classification of
the client into `added` (no previous meta and a non-null state),
`removed` (previous meta and a null state), or `updated` (non-null
state otherwise, with `filteredUpdated` additionally requiring deep
inequality against the previous state).  An accepted removal for a
client with no previous meta entry lands in none of the lists.  A
rejected entry leaves the accumulator untouched. -/
def applyEntryStep (now : Nat) (acc : ApplyAcc) (e : AwarenessEntry) : ApplyAcc :=
  if acceptCond acc.aw e then
    let aw' := applyEntryAw now acc.aw e
    if (acc.aw.meta e.1).isNone ∧ e.2.2.isNull = false then
      { acc with aw := aw', added := acc.added ++ [e.1] }
    else if (acc.aw.meta e.1).isSome ∧ e.2.2.isNull = true then
      { acc with aw := aw', removed := acc.removed ++ [e.1] }
    else if e.2.2.isNull = false then
      { acc with
        aw := aw',
        updated := acc.updated ++ [e.1],
        filteredUpdated :=
          if (match acc.aw.states e.1 with | some p => jsonEq e.2.2 p | none => false) then
            acc.filteredUpdated
          else acc.filteredUpdated ++ [e.1] }
    else
      { acc with aw := aw' }
  else acc

/-- The states/meta effect of applying a whole decoded update. -/
def applyEntriesAw (now : Nat) (aw : Awareness) (entries : List AwarenessEntry) : Awareness :=
  entries.foldl (applyEntryAw now) aw

/-- `applyAwarenessUpdate` on an already-decoded entry list: fold the
loop body over the entries, starting from empty classification lists.
The `change` event then fires iff `added`, `filteredUpdated` or
`removed` is non-empty, and the `update` event iff `added`, `updated`
or `removed` is non-empty, both tagged with the caller's origin. -/
def applyAwarenessEntries (now : Nat) (aw : Awareness) (entries : List AwarenessEntry) : ApplyAcc :=
  entries.foldl (applyEntryStep now) ⟨aw, [], [], [], []⟩

/-! ## The binary layer (lib0 `encoding`/`decoding`)

Byte buffers are `List Nat`.  `writeVarUint` emits little-endian 7-bit
groups with a continuation bit; `writeVarString` emits the varuint byte
length of the UTF-8 encoding followed by the bytes. -/

/-- lib0 `writeVarUint`: while the number exceeds 127, emit the low 7
bits with the continuation bit set and shift right by 7. -/
def writeVarUint (n : Nat) : List Nat :=
  if h : n > 127 then (128 + n % 128) :: writeVarUint (n / 128) else [n]
decreasing_by
  exact Nat.div_lt_self (by omega) (by omega)

/-- lib0 `readVarUint`: accumulate 7-bit groups until a byte without
the continuation bit; `none` models the thrown error on a truncated
buffer. -/
def readVarUint : List Nat → Option (Nat × List Nat)
  | [] => none
  | b :: rest =>
    if b ≥ 128 then
      (readVarUint rest).map (fun p => ((b - 128) + 128 * p.1, p.2))
    else some (b, rest)

/-- UTF-8 encoding of a single character, by code-point range. -/
def utf8EncodeChar (c : Char) : List Nat :=
  let n := c.toNat
  if n < 128 then [n]
  else if n < 2048 then [192 + n / 64, 128 + n % 64]
  else if n < 65536 then [224 + n / 4096, 128 + (n / 64) % 64, 128 + n % 64]
  else [240 + n / 262144, 128 + (n / 4096) % 64, 128 + (n / 64) % 64, 128 + n % 64]

/-- UTF-8 encoding of a string (as its character list). -/
def utf8Encode : List Char → List Nat
  | [] => []
  | c :: t => utf8EncodeChar c ++ utf8Encode t

/-- Read one UTF-8 continuation byte (high bits `10`), returning its
six payload bits. -/
def utf8Cont : List Nat → Option (Nat × List Nat)
  | [] => none
  | b :: rest => if 128 ≤ b ∧ b < 192 then some (b - 128, rest) else none

/-- Decode one UTF-8 character from the front of the byte list;
`none` models the decode error on malformed bytes. -/
def utf8DecodeChar : List Nat → Option (Char × List Nat)
  | [] => none
  | b :: rest =>
    if b < 128 then some (Char.ofNat b, rest)
    else if b < 224 then
      if 192 ≤ b then
        (utf8Cont rest).map (fun p => (Char.ofNat ((b - 192) * 64 + p.1), p.2))
      else none
    else if b < 240 then
      (utf8Cont rest).bind (fun p1 =>
        (utf8Cont p1.2).map (fun p2 =>
          (Char.ofNat ((b - 224) * 4096 + p1.1 * 64 + p2.1), p2.2)))
    else
      (utf8Cont rest).bind (fun p1 =>
        (utf8Cont p1.2).bind (fun p2 =>
          (utf8Cont p2.2).map (fun p3 =>
            (Char.ofNat ((b - 240) * 262144 + p1.1 * 4096 + p2.1 * 64 + p3.1), p3.2))))

/-- Fueled UTF-8 decoding loop; each decoded character consumes at
least one byte, so fuel equal to the byte count always suffices. -/
def utf8DecodeGo : Nat → List Nat → Option (List Char)
  | _, [] => some []
  | 0, _ :: _ => none
  | fuel + 1, b :: rest =>
    (utf8DecodeChar (b :: rest)).bind (fun p =>
      (utf8DecodeGo fuel p.2).map (fun s => p.1 :: s))

/-- UTF-8 decoding of a whole byte list; `none` models the decode
error on malformed bytes. -/
def utf8Decode (l : List Nat) : Option (List Char) :=
  utf8DecodeGo l.length l

/-- lib0 `writeVarString`: varuint byte length, then the UTF-8 bytes. -/
def writeVarString (s : List Char) : List Nat :=
  writeVarUint (utf8Encode s).length ++ utf8Encode s

/-- lib0 `readVarString`: read the byte length, take that many bytes
and UTF-8-decode them; `none` models the thrown error on a truncated
or malformed buffer. -/
def readVarString (l : List Nat) : Option (List Char × List Nat) :=
  (readVarUint l).bind (fun p =>
    if p.1 ≤ p.2.length then
      (utf8Decode (p.2.take p.1)).map (fun s => (s, p.2.drop p.1))
    else none)

/-! ## The JSON text codec

Models the `JSON.stringify`/`JSON.parse` builtins the awareness codec
wraps its state payloads with: compact output (no whitespace), strings
escaping the quote and backslash characters, integral numbers. -/

/-- A decimal digit as a character. -/
def digitChar (d : Nat) : Char :=
  Char.ofNat (48 + d)

/-- Little-endian decimal digits of a number (empty for 0). -/
def digitsRev : Nat → List Nat
  | 0 => []
  | n + 1 => ((n + 1) % 10) :: digitsRev ((n + 1) / 10)
decreasing_by
  exact Nat.div_lt_self (by omega) (by omega)

/-- Decimal representation of a natural number. -/
def natChars (m : Nat) : List Char :=
  if m = 0 then ['0'] else ((digitsRev m).reverse).map digitChar

/-- Decimal representation of an integer. -/
def intChars (i : Int) : List Char :=
  if i < 0 then '-' :: natChars i.natAbs else natChars i.toNat

/-- JSON string escaping of one character: quote and backslash get a
backslash prefix, everything else is emitted as itself. -/
def escapeChar (c : Char) : List Char :=
  if c = '"' ∨ c = '\\' then ['\\', c] else [c]

/-- JSON string escaping of a character list. -/
def escapeChars : List Char → List Char
  | [] => []
  | c :: t => escapeChar c ++ escapeChars t

mutual
/-- `JSON.stringify` on the `Json` model (compact form, as the builtin
emits with no spacing argument). -/
def jsonStringify : Json → List Char
  | .null => 'n' :: ['u', 'l', 'l']
  | .bool true => 't' :: ['r', 'u', 'e']
  | .bool false => 'f' :: ['a', 'l', 's', 'e']
  | .num i => intChars i
  | .str s => '"' :: escapeChars s ++ ['"']
  | .arr [] => ['[', ']']
  | .arr (x :: t) => '[' :: (jsonStringify x ++ stringifyArrTail t) ++ [']']
  | .obj [] => ['\x7b', '\x7d']
  | .obj ((k, v) :: t) => '\x7b' :: (stringifyMember k v ++ stringifyObjTail t) ++ ['\x7d']

/-- Remaining array elements, each preceded by a comma. -/
def stringifyArrTail : List Json → List Char
  | [] => []
  | x :: t => ',' :: jsonStringify x ++ stringifyArrTail t

/-- One `"key":value` object member. -/
def stringifyMember (k : List Char) (v : Json) : List Char :=
  '"' :: escapeChars k ++ '"' :: ':' :: jsonStringify v

/-- Remaining object members, each preceded by a comma. -/
def stringifyObjTail : List (List Char × Json) → List Char
  | [] => []
  | (ke, ve) :: t => ',' :: stringifyMember ke ve ++ stringifyObjTail t
end

/-- Is the character a decimal digit? -/
def isDigitChar (c : Char) : Bool :=
  48 ≤ c.toNat && c.toNat ≤ 57

/-- Consume a maximal run of decimal digits, big-endian accumulating. -/
def parseNatAux (acc : Nat) : List Char → Nat × List Char
  | [] => (acc, [])
  | c :: rest =>
    if isDigitChar c then parseNatAux (acc * 10 + (c.toNat - 48)) rest
    else (acc, c :: rest)

/-- Parse a decimal natural number (at least one digit required). -/
def parseNat : List Char → Option (Nat × List Char)
  | [] => none
  | c :: rest =>
    if isDigitChar c then some (parseNatAux (c.toNat - 48) rest) else none

/-- Parse the body of a JSON string after the opening quote, undoing
the `escapeChars` escapes; stops at the closing quote. -/
def parseStr : List Char → Option (List Char × List Char)
  | [] => none
  | [c] => if c = '"' then some ([], []) else none
  | c :: c2 :: rest =>
    if c = '"' then some ([], c2 :: rest)
    else if c = '\\' then
      if c2 = '"' ∨ c2 = '\\' then (parseStr rest).map (fun p => (c2 :: p.1, p.2))
      else none
    else (parseStr (c2 :: rest)).map (fun p => (c :: p.1, p.2))

/-- Strip an expected literal character sequence (`ull`, `rue`,
`alse`) off the input. -/
def stripLit : List Char → List Char → Option (List Char)
  | [], l => some l
  | _ :: _, [] => none
  | c :: p, x :: l => if x = c then stripLit p l else none

mutual
/-- Fueled recursive-descent parser for one JSON value, dispatching on
the first character.  The fuel only bounds nesting; `jsonParse` below
supplies enough for any input. -/
def parseVal : Nat → List Char → Option (Json × List Char)
  | 0, _ => none
  | _ + 1, [] => none
  | fuel + 1, c :: rest =>
    if c = 'n' then
      (stripLit ['u', 'l', 'l'] rest).map (fun r => (.null, r))
    else if c = 't' then
      (stripLit ['r', 'u', 'e'] rest).map (fun r => (.bool true, r))
    else if c = 'f' then
      (stripLit ['a', 'l', 's', 'e'] rest).map (fun r => (.bool false, r))
    else if c = '"' then
      (parseStr rest).map (fun p => (.str p.1, p.2))
    else if c = '[' then
      if rest.head? = some ']' then some (.arr [], rest.tail)
      else (parseArrItems fuel rest).map (fun p => (.arr p.1, p.2))
    else if c = '\x7b' then
      if rest.head? = some '\x7d' then some (.obj [], rest.tail)
      else (parseObjItems fuel rest).map (fun p => (.obj p.1, p.2))
    else if c = '-' then
      (parseNat rest).map (fun p => (.num (-(p.1 : Int)), p.2))
    else if isDigitChar c then
      (parseNat (c :: rest)).map (fun p => (.num (p.1 : Int), p.2))
    else none

/-- Parse one or more comma-separated array elements up to the closing
bracket. -/
def parseArrItems : Nat → List Char → Option (List Json × List Char)
  | 0, _ => none
  | fuel + 1, l =>
    (parseVal fuel l).bind (fun p =>
      if p.2.head? = some ']' then some ([p.1], p.2.tail)
      else if p.2.head? = some ',' then
        (parseArrItems fuel p.2.tail).map (fun q => (p.1 :: q.1, q.2))
      else none)

/-- Parse one or more comma-separated object members up to the closing
brace. -/
def parseObjItems : Nat → List Char → Option (List (List Char × Json) × List Char)
  | 0, _ => none
  | fuel + 1, l =>
    if l.head? = some '"' then
      (parseStr l.tail).bind (fun pk =>
        if pk.2.head? = some ':' then
          (parseVal fuel pk.2.tail).bind (fun pv =>
            if pv.2.head? = some '\x7d' then some ([(pk.1, pv.1)], pv.2.tail)
            else if pv.2.head? = some ',' then
              (parseObjItems fuel pv.2.tail).map (fun q => ((pk.1, pv.1) :: q.1, q.2))
            else none)
        else none)
    else none

end

/-- `JSON.parse` on the model: parse one value and require the input to
be consumed entirely; `none` models the thrown `SyntaxError`.  The fuel
`length + 1` dominates the nesting depth of any parseable input. -/
def jsonParse (s : List Char) : Option Json :=
  (parseVal (s.length + 1) s).bind (fun p => if p.2 = [] then some p.1 else none)

/-! ## The awareness wire codec -/

/-- The `states.get(clientID) || null` read of the encoder: a missing
entry and a falsy stored value both encode as JSON `null`. -/
def jsOrNull (o : Option Json) : Json :=
  match o with
  | some v => if jsTruthy v then v else Json.null
  | none => Json.null

/-- The entry-emitting loop of `encodeAwarenessUpdate`: for each listed
client, its id, its current meta clock, and its JSON-serialized state. -/
def encodeAwarenessEntryList (aw : Awareness) (states : Nat → Option Json) :
    List Nat → List Nat
  | [] => []
  | c :: t =>
    writeVarUint c ++ writeVarUint (clockOf aw c) ++
      writeVarString (jsonStringify (jsOrNull (states c))) ++
      encodeAwarenessEntryList aw states t

/-- `encodeAwarenessUpdate(awareness, clients, states = awareness.states)`:
the entry count followed by one `(id, clock, stateText)` triple per
listed client, in list order. -/
def encodeAwarenessUpdate (aw : Awareness) (clients : List Nat)
    (states : Nat → Option Json) : List Nat :=
  writeVarUint clients.length ++ encodeAwarenessEntryList aw states clients

/-- The entry-reading loop shared by `applyAwarenessUpdate` and
`modifyAwarenessUpdate`: read `count` triples of varuint id, varuint
clock, and JSON text; `none` models any thrown decode error. -/
def decodeAwarenessEntryList : Nat → List Nat → Option (List AwarenessEntry × List Nat)
  | 0, l => some ([], l)
  | n + 1, l =>
    (readVarUint l).bind (fun pc =>
      (readVarUint pc.2).bind (fun pk =>
        (readVarString pk.2).bind (fun ps =>
          (jsonParse ps.1).bind (fun j =>
            (decodeAwarenessEntryList n ps.2).map (fun pes =>
              ((pc.1, pk.1, j) :: pes.1, pes.2))))))

/-- Decode a whole awareness update buffer into its entry list
(the reading side of `applyAwarenessUpdate`); trailing bytes beyond the
announced entry count are ignored, as in the source. -/
def decodeAwarenessUpdate (update : List Nat) : Option (List AwarenessEntry) :=
  (readVarUint update).bind (fun p =>
    (decodeAwarenessEntryList p.1 p.2).map (fun q => q.1))

/-- `applyAwarenessUpdate(awareness, update, origin)` from raw bytes:
decode, then fold the loop body (the source interleaves decoding and
application; no claim depends on the partially-applied prefix left
behind by a mid-buffer decode error). -/
def applyAwarenessUpdate (now : Nat) (aw : Awareness) (update : List Nat) :
    Option ApplyAcc :=
  (decodeAwarenessUpdate update).map (applyAwarenessEntries now aw)

/-! ## Concrete stores used by the witnesses -/

/-- A store whose local client 0 is online with state `{"x":1}` and
which also knows an offline client 1. -/
def awExample : Awareness :=
  ⟨0,
   fun c => if c = 0 then some (Json.obj [(['x'], Json.num 1)]) else none,
   fun c =>
     if c = 0 then some ⟨1, 5⟩
     else if c = 1 then some ⟨2, 5⟩
     else none⟩

/-! ## Auxiliary definitions for the codec proofs -/

/-- Numeric value of a little-endian decimal digit list. -/
def valRev : List Nat → Nat
  | [] => 0
  | d :: t => d + 10 * valRev t

/-- The input does not start with a decimal digit (so a maximal-munch
number parse stops exactly at its end). -/
def headNotDigit : List Char → Prop
  | [] => True
  | c :: _ => isDigitChar c = false

mutual
/-- Fuel sufficient to parse a serialized value (dominates nesting and
element counts). -/
def jM : Json → Nat
  | .null => 1
  | .bool _b => 1
  | .num _i => 1
  | .str _s => 1
  | .arr xs => jMA xs + 1
  | .obj kvs => jMO kvs + 1

/-- Fuel sufficient to parse a serialized array tail. -/
def jMA : List Json → Nat
  | [] => 0
  | x :: t => max (jM x) (jMA t) + 1

/-- Fuel sufficient to parse a serialized object tail. -/
def jMO : List (List Char × Json) → Nat
  | [] => 0
  | (_ke, ve) :: t => max (jM ve) (jMO t) + 1
end

/-! ## Helper lemmas -/

/-- Reading a map at the key just set. -/
theorem mapSet_self {α : Type} (m : Nat → Option α) (k : Nat) (v : α) :
    mapSet m k v k = some v := by
  simp [mapSet]

/-- Reading a map at a different key than the one set. -/
theorem mapSet_other {α : Type} (m : Nat → Option α) (k x : Nat) (v : α) (h : x ≠ k) :
    mapSet m k v x = m x := by
  simp [mapSet, h]

/-- Reading a map at the key just deleted. -/
theorem mapDelete_self {α : Type} (m : Nat → Option α) (k : Nat) :
    mapDelete m k k = none := by
  simp [mapDelete]

/-- Reading a map at a different key than the one deleted. -/
theorem mapDelete_other {α : Type} (m : Nat → Option α) (k x : Nat) (h : x ≠ k) :
    mapDelete m k x = m x := by
  simp [mapDelete, h]

/-! ## C3: the register merge rule -/

/-- C3: `LWWRegister.merge` keeps the local state when the local
counter is strictly larger, or when the counters tie and the peers
differ; otherwise (strictly larger remote counter, or tied counter
with the same peer) it adopts the remote state wholesale, leaving the
register's own id unchanged. -/
theorem lwwRegister_merge_rule {α : Type} (r : LWWRegister α) (s : IState α) :
    (r.state.timestamp > s.timestamp → r.merge s = r) ∧
    (r.state.timestamp = s.timestamp ∧ s.peer ≠ r.state.peer → r.merge s = r) ∧
    ((r.state.timestamp < s.timestamp ∨ (r.state.timestamp = s.timestamp ∧ s.peer = r.state.peer)) →
      r.merge s = ⟨r.id, s⟩) := by
  refine ⟨fun h => ?_, fun h => ?_, fun h => ?_⟩
  · simp [LWWRegister.merge, h]
  · unfold LWWRegister.merge
    rw [if_neg (by omega), if_pos h]
  · unfold LWWRegister.merge
    rcases h with h | ⟨h1, h2⟩
    · rw [if_neg (by omega), if_neg (fun hc => absurd hc.1 (by omega))]
    · rw [if_neg (by omega), if_neg (fun hc => hc.2 h2)]

/-- Witness for C3: each branch of the merge rule at concrete
registers. -/
theorem lwwRegister_merge_rule_witness :
    ((⟨"a", ⟨"a", 5, 1⟩⟩ : LWWRegister Nat).merge ⟨"b", 4, 2⟩ = ⟨"a", ⟨"a", 5, 1⟩⟩) ∧
    ((⟨"a", ⟨"a", 5, 1⟩⟩ : LWWRegister Nat).merge ⟨"b", 5, 2⟩ = ⟨"a", ⟨"a", 5, 1⟩⟩) ∧
    ((⟨"a", ⟨"a", 4, 1⟩⟩ : LWWRegister Nat).merge ⟨"b", 5, 2⟩ = ⟨"a", ⟨"b", 5, 2⟩⟩) :=
  ⟨(lwwRegister_merge_rule _ _).1 (by decide),
   (lwwRegister_merge_rule _ _).2.1 ⟨rfl, by decide⟩,
   (lwwRegister_merge_rule _ _).2.2 (Or.inl (by decide))⟩

/-! ## C5: `LWWMap.has` on a never-set key -/

/-- C5 (code bug evaluation): on a freshly constructed map with no
entries, `has("a")` evaluates to `true`, because the source compares
`this.data.get(key)?.value !== null` and the optional chain yields
`undefined`, which is strictly unequal to `null`.  The specified
behaviour (`true` iff an entry exists and is not tombstoned) requires
`false` here. -/
theorem lwwMap_has_never_set :
    freshLWWMap.has "a" = true ∧ freshLWWMap.data "a" = none :=
  ⟨rfl, rfl⟩

/-! ## C6: `LWWMap.get` on a falsy stored value -/

/-- C6 (code bug evaluation): with the non-tombstone value `0` stored
at key `"k"`, `get("k")` evaluates to absent (`undefined`), because the
source returns `this.data.get(key)?.value || undefined` and `0` is
falsy.  The specified behaviour (return every stored non-tombstone
value) requires `0` here. -/
theorem lwwMap_get_falsy_value :
    lwwMapWithZero.get "k" = none ∧
    (lwwMapWithZero.data "k").map (fun r => r.value) = some (some (Json.num 0)) :=
  ⟨rfl, rfl⟩

/-! ## C10: `setLocalState` always bumps the local clock -/

/-- C10: every `setLocalState` call, including `setLocalState(null)`,
stores a local meta entry whose clock is 0 when no meta entry existed
and the previous clock plus 1 otherwise, with `lastUpdated = now`. -/
theorem setLocalState_meta_clock (aw : Awareness) (state : Option Json) (now : Nat) :
    (aw.setLocalState state now).1.meta aw.clientID =
      some ⟨(match aw.meta aw.clientID with | none => 0 | some m => m.clock + 1), now⟩ := by
  rcases h : aw.meta aw.clientID with _ | m <;>
    simp [Awareness.setLocalState, mapSet, h]

/-- Unfolding equation of `applyEntryAw` on a destructured entry. -/
theorem applyEntryAw_eq (now : Nat) (aw : Awareness) (c k : Nat) (s : Json) :
    applyEntryAw now aw (c, k, s) =
      if acceptCond aw (c, k, s) then
        if s.isNull = true then
          if c = aw.clientID ∧ (aw.getLocalState).isSome = true then
            { aw with meta := mapSet aw.meta c ⟨k + 1, now⟩ }
          else
            { aw with states := mapDelete aw.states c, meta := mapSet aw.meta c ⟨k, now⟩ }
        else
          { aw with states := mapSet aw.states c s, meta := mapSet aw.meta c ⟨k, now⟩ }
      else aw :=
  rfl

/-- Unfolding equation of `applyEntryStep` on a destructured entry. -/
theorem applyEntryStep_eq (now : Nat) (acc : ApplyAcc) (c k : Nat) (s : Json) :
    applyEntryStep now acc (c, k, s) =
      if acceptCond acc.aw (c, k, s) then
        if (acc.aw.meta c).isNone ∧ s.isNull = false then
          { acc with aw := applyEntryAw now acc.aw (c, k, s), added := acc.added ++ [c] }
        else if (acc.aw.meta c).isSome ∧ s.isNull = true then
          { acc with aw := applyEntryAw now acc.aw (c, k, s), removed := acc.removed ++ [c] }
        else if s.isNull = false then
          { acc with
            aw := applyEntryAw now acc.aw (c, k, s),
            updated := acc.updated ++ [c],
            filteredUpdated :=
              if (match acc.aw.states c with | some p => jsonEq s p | none => false) then
                acc.filteredUpdated
              else acc.filteredUpdated ++ [c] }
        else
          { acc with aw := applyEntryAw now acc.aw (c, k, s) }
      else acc :=
  rfl

/-! ## C2: self-protection against remote removal -/

/-- C2: an accepted removal entry aimed at the local client while its
local state is non-null leaves the whole `states` map unchanged and
stores a local meta entry with the accepted clock plus 1, so the local
meta clock strictly increases. -/
theorem applyEntry_self_protection (now : Nat) (aw : Awareness) (k : Nat)
    (hsome : (aw.getLocalState).isSome = true)
    (hacc : clockOf aw aw.clientID < k ∨
      (clockOf aw aw.clientID = k ∧ (aw.states aw.clientID).isSome = true)) :
    (applyEntryAw now aw (aw.clientID, k, Json.null)).states = aw.states ∧
    (applyEntryAw now aw (aw.clientID, k, Json.null)).meta aw.clientID = some ⟨k + 1, now⟩ ∧
    clockOf aw aw.clientID < k + 1 := by
  have hcond : acceptCond aw (aw.clientID, k, Json.null) := by
    rcases hacc with h | ⟨h1, h2⟩
    · exact Or.inl h
    · exact Or.inr ⟨h1, rfl, h2⟩
  have hnull : Json.null.isNull = true := rfl
  rw [applyEntryAw_eq, if_pos hcond, if_pos hnull, if_pos ⟨rfl, hsome⟩]
  refine ⟨rfl, mapSet_self _ _ _, ?_⟩
  rcases hacc with h | ⟨h1, _⟩ <;> omega

/-- Witness for C2 at the concrete store `awExample` (local client 0,
online, local clock 1) receiving the removal `(0, 2, null)`. -/
theorem applyEntry_self_protection_witness :
    (applyEntryAw 7 awExample (awExample.clientID, 2, Json.null)).states = awExample.states ∧
    (applyEntryAw 7 awExample (awExample.clientID, 2, Json.null)).meta awExample.clientID =
      some ⟨2 + 1, 7⟩ ∧
    clockOf awExample awExample.clientID < 2 + 1 :=
  applyEntry_self_protection 7 awExample 2 (by decide) (Or.inl (by decide))

/-! ## C4: acceptance condition and silent rejection -/

/-- C4: an entry is accepted iff the locally known clock (0 when no
meta entry exists) is strictly behind the entry's clock, or ties while
the entry is a removal and the client currently has a `states` entry.
A rejected entry leaves the whole accumulator — store and event
lists — untouched (and the model is a total function: no error).  On
acceptance the client's meta entry is rewritten to the accepted clock
(bumped by one in the self-protection case) and `lastUpdated = now`. -/
theorem applyEntry_accept_iff (now : Nat) (acc : ApplyAcc) (c k : Nat) (s : Json) :
    (¬(clockOf acc.aw c < k ∨
        (clockOf acc.aw c = k ∧ s.isNull = true ∧ (acc.aw.states c).isSome = true)) →
      applyEntryStep now acc (c, k, s) = acc) ∧
    ((clockOf acc.aw c < k ∨
        (clockOf acc.aw c = k ∧ s.isNull = true ∧ (acc.aw.states c).isSome = true)) →
      (applyEntryStep now acc (c, k, s)).aw.meta c =
        some ⟨(if c = acc.aw.clientID ∧ s.isNull = true ∧ (acc.aw.getLocalState).isSome = true
               then k + 1 else k), now⟩) := by
  constructor
  · intro h
    rw [applyEntryStep_eq, if_neg h]
  · intro h
    have hstep : (applyEntryStep now acc (c, k, s)).aw = applyEntryAw now acc.aw (c, k, s) := by
      rw [applyEntryStep_eq, if_pos h]
      split
      · rfl
      · split
        · rfl
        · split <;> rfl
    rw [hstep, applyEntryAw_eq, if_pos h]
    by_cases hn : s.isNull = true
    · rw [if_pos hn]
      by_cases hself : c = acc.aw.clientID ∧ (acc.aw.getLocalState).isSome = true
      · rw [if_pos hself]
        show mapSet acc.aw.meta c ⟨k + 1, now⟩ c = _
        rw [mapSet_self, if_pos ⟨hself.1, hn, hself.2⟩]
      · rw [if_neg hself]
        show mapSet acc.aw.meta c ⟨k, now⟩ c = _
        rw [mapSet_self, if_neg (fun hc => hself ⟨hc.1, hc.2.2⟩)]
    · rw [if_neg hn]
      show mapSet acc.aw.meta c ⟨k, now⟩ c = _
      rw [mapSet_self, if_neg (fun hc => hn hc.2.1)]

/-- Witness for C4 at `awExample`: the stale entry `(1, 1, null)`
(local clock for client 1 is 2) is silently rejected, and the fresh
entry `(1, 5, null)` is accepted with its meta entry rewritten. -/
theorem applyEntry_accept_iff_witness :
    (applyEntryStep 7 ⟨awExample, [], [], [], []⟩ (1, 1, Json.null) = ⟨awExample, [], [], [], []⟩) ∧
    ((applyEntryStep 7 ⟨awExample, [], [], [], []⟩ (1, 5, Json.null)).aw.meta 1 =
      some ⟨(if 1 = awExample.clientID ∧ (Json.null).isNull = true ∧
               (awExample.getLocalState).isSome = true then 5 + 1 else 5), 7⟩) :=
  ⟨(applyEntry_accept_iff 7 ⟨awExample, [], [], [], []⟩ 1 1 Json.null).1 (by decide),
   (applyEntry_accept_iff 7 ⟨awExample, [], [], [], []⟩ 1 5 Json.null).2 (Or.inl (by decide))⟩

/-! ## C9: accepted removal for a client with no meta entry -/

/-- C9: an accepted removal entry for a client with no previous meta
entry (acceptance coming from `0 < clock`) creates a meta entry with
the remote clock, yet the client is pushed into none of the
classification lists, so neither the `change` nor the `update` event
mentions it.  The hypothesis that the local client has a meta entry is
an invariant of every reachable store (the constructor runs
`setLocalState({})`) and rules the self-protection branch out. -/
theorem applyEntry_unknown_removal (now : Nat) (acc : ApplyAcc) (c k : Nat)
    (hmeta : acc.aw.meta c = none)
    (hself : acc.aw.meta acc.aw.clientID ≠ none)
    (hk : 0 < k) :
    (applyEntryStep now acc (c, k, Json.null)).aw.meta c = some ⟨k, now⟩ ∧
    (applyEntryStep now acc (c, k, Json.null)).added = acc.added ∧
    (applyEntryStep now acc (c, k, Json.null)).updated = acc.updated ∧
    (applyEntryStep now acc (c, k, Json.null)).filteredUpdated = acc.filteredUpdated ∧
    (applyEntryStep now acc (c, k, Json.null)).removed = acc.removed := by
  have hne : c ≠ acc.aw.clientID := by
    intro hc
    exact hself (hc ▸ hmeta)
  have hclock : clockOf acc.aw c = 0 := by
    unfold clockOf
    rw [hmeta]
  have hcond : acceptCond acc.aw (c, k, Json.null) := Or.inl (by rw [hclock]; exact hk)
  have hnull : Json.null.isNull = true := rfl
  have hstep : applyEntryStep now acc (c, k, Json.null) =
      { acc with aw := applyEntryAw now acc.aw (c, k, Json.null) } := by
    rw [applyEntryStep_eq, if_pos hcond]
    rw [if_neg (fun hc => absurd hc.2 (by decide)),
      if_neg (fun hc => by rw [hmeta] at hc; exact absurd hc.1 (by decide)),
      if_neg (fun hc => absurd hc (by decide))]
  have haw : (applyEntryAw now acc.aw (c, k, Json.null)).meta c = some ⟨k, now⟩ := by
    rw [applyEntryAw_eq, if_pos hcond, if_pos hnull,
      if_neg (fun hc => hne hc.1)]
    exact mapSet_self _ _ _
  rw [hstep]
  exact ⟨haw, rfl, rfl, rfl, rfl⟩

/-- Witness for C9 at `awExample`: the removal `(5, 3, null)` for the
unknown client 5 creates its meta entry silently. -/
theorem applyEntry_unknown_removal_witness :
    (applyEntryStep 7 ⟨awExample, [], [], [], []⟩ (5, 3, Json.null)).aw.meta 5 = some ⟨3, 7⟩ ∧
    (applyEntryStep 7 ⟨awExample, [], [], [], []⟩ (5, 3, Json.null)).added = [] ∧
    (applyEntryStep 7 ⟨awExample, [], [], [], []⟩ (5, 3, Json.null)).updated = [] ∧
    (applyEntryStep 7 ⟨awExample, [], [], [], []⟩ (5, 3, Json.null)).filteredUpdated = [] ∧
    (applyEntryStep 7 ⟨awExample, [], [], [], []⟩ (5, 3, Json.null)).removed = [] :=
  applyEntry_unknown_removal 7 ⟨awExample, [], [], [], []⟩ 5 3 rfl (by decide) (by decide)

/-! ## C1: `removeAwarenessStates` including the local client -/

/-- Unfolding equation of `removeStep`. -/
theorem removeStep_eq (now : Nat) (acc : Awareness × List Nat) (c : Nat) :
    removeStep now acc c =
      if (acc.1.states c).isSome = true then
        if c = acc.1.clientID then
          ({ acc.1 with
             states := mapDelete acc.1.states c,
             meta := mapSet acc.1.meta c ⟨clockOf acc.1 c + 1, now⟩ }, acc.2 ++ [c])
        else ({ acc.1 with states := mapDelete acc.1.states c }, acc.2 ++ [c])
      else acc :=
  rfl

/-- Counterexample for C1 as stated: at `awExample` the local client 0
is online (`states 0` is a non-null object), yet after
`removeAwarenessStates` over the list `[0]` its `states` entry IS
cleared — the source deletes the entry first and only then gives the
local client the special clock bump. -/
theorem removeAwarenessStates_self_counterexample :
    awExample.clientID = 0 ∧
    awExample.states 0 = some (Json.obj [(['x'], Json.num 1)]) ∧
    (removeAwarenessStates awExample [0] 9).1.states 0 = none :=
  ⟨rfl, rfl, rfl⟩

/-- `removeStep` never changes the stored local client id. -/
theorem removeStep_clientID (now : Nat) (acc : Awareness × List Nat) (c : Nat) :
    (removeStep now acc c).1.clientID = acc.1.clientID := by
  rw [removeStep_eq]
  split
  · split <;> rfl
  · rfl

/-- The step for the local client itself while it is online: delete
the `states` entry, bump the meta clock, report the removal. -/
theorem removeStep_self (now : Nat) (acc : Awareness × List Nat) (m : MetaClientState)
    (honline : (acc.1.states acc.1.clientID).isSome = true)
    (hmeta : acc.1.meta acc.1.clientID = some m) :
    removeStep now acc acc.1.clientID =
      ({ acc.1 with
         states := mapDelete acc.1.states acc.1.clientID,
         meta := mapSet acc.1.meta acc.1.clientID ⟨m.clock + 1, now⟩ },
       acc.2 ++ [acc.1.clientID]) := by
  rw [removeStep_eq, if_pos honline, if_pos rfl]
  have hclk : clockOf acc.1 acc.1.clientID = m.clock := by
    unfold clockOf
    rw [hmeta]
  rw [hclk]

/-- The step for another client leaves the local client's entries
alone. -/
theorem removeStep_other (now : Nat) (acc : Awareness × List Nat) (c : Nat)
    (hc : c ≠ acc.1.clientID) :
    (removeStep now acc c).1.states acc.1.clientID = acc.1.states acc.1.clientID ∧
    (removeStep now acc c).1.meta acc.1.clientID = acc.1.meta acc.1.clientID := by
  by_cases hsome : (acc.1.states c).isSome = true
  · rw [removeStep_eq, if_pos hsome, if_neg hc]
    exact ⟨mapDelete_other _ _ _ (fun h => hc h.symm), rfl⟩
  · rw [removeStep_eq, if_neg hsome]
    exact ⟨rfl, rfl⟩

/-- Once the local client's `states` entry is gone, the rest of the
removal fold never restores it, never touches the local meta entry,
and only appends to the `removed` list. -/
theorem removeFold_offline_self (now : Nat) :
    ∀ (l : List Nat) (acc : Awareness × List Nat),
      acc.1.states acc.1.clientID = none →
      (l.foldl (removeStep now) acc).1.states acc.1.clientID = none ∧
      (l.foldl (removeStep now) acc).1.meta acc.1.clientID = acc.1.meta acc.1.clientID ∧
      ∀ x ∈ acc.2, x ∈ (l.foldl (removeStep now) acc).2 := by
  intro l
  induction l with
  | nil => exact fun acc h => ⟨h, rfl, fun x hx => hx⟩
  | cons c t ih =>
    intro acc h
    have hstep : (removeStep now acc c).1.states acc.1.clientID = none ∧
        (removeStep now acc c).1.meta acc.1.clientID = acc.1.meta acc.1.clientID ∧
        ∀ x ∈ acc.2, x ∈ (removeStep now acc c).2 := by
      by_cases hsome : (acc.1.states c).isSome = true
      · have hcne : c ≠ acc.1.clientID := by
          intro hcc
          rw [hcc, h] at hsome
          exact absurd hsome (by decide)
        rw [removeStep_eq, if_pos hsome, if_neg hcne]
        refine ⟨?_, rfl, fun x hx => List.mem_append_left _ hx⟩
        exact (mapDelete_other _ _ _ (fun hcc => hcne hcc.symm)).trans h
      · rw [removeStep_eq, if_neg hsome]
        exact ⟨h, rfl, fun x hx => hx⟩
    have hcid := removeStep_clientID now acc c
    rw [List.foldl_cons]
    have ih' := ih (removeStep now acc c) (by rw [hcid]; exact hstep.1)
    rw [hcid] at ih'
    exact ⟨ih'.1, ih'.2.1.trans hstep.2.1, fun x hx => ih'.2.2 x (hstep.2.2 x hx)⟩

/-- The removal fold for a list containing the local client: the local
`states` entry ends deleted, the local meta clock ends bumped by one
with `lastUpdated = now`, and the local client is reported in the
accumulated `removed` list. -/
theorem removeFold_self (now : Nat) :
    ∀ (l : List Nat) (acc : Awareness × List Nat) (m : MetaClientState),
      acc.1.clientID ∈ l →
      (acc.1.states acc.1.clientID).isSome = true →
      acc.1.meta acc.1.clientID = some m →
      (l.foldl (removeStep now) acc).1.states acc.1.clientID = none ∧
      (l.foldl (removeStep now) acc).1.meta acc.1.clientID = some ⟨m.clock + 1, now⟩ ∧
      acc.1.clientID ∈ (l.foldl (removeStep now) acc).2 := by
  intro l
  induction l with
  | nil => exact fun acc m h => absurd h (List.not_mem_nil _)
  | cons c t ih =>
    intro acc m hin honline hmeta
    rw [List.foldl_cons]
    by_cases hc : c = acc.1.clientID
    · rw [hc, removeStep_self now acc m honline hmeta]
      have hoff := removeFold_offline_self now t
        ({ acc.1 with
           states := mapDelete acc.1.states acc.1.clientID,
           meta := mapSet acc.1.meta acc.1.clientID ⟨m.clock + 1, now⟩ },
         acc.2 ++ [acc.1.clientID])
        (mapDelete_self _ _)
      refine ⟨hoff.1, hoff.2.1.trans (mapSet_self _ _ _), ?_⟩
      exact hoff.2.2 acc.1.clientID (List.mem_append_right _ (List.mem_singleton_self _))
    · have hcid := removeStep_clientID now acc c
      have hpres := removeStep_other now acc c hc
      have hin' : acc.1.clientID ∈ t := by
        rcases List.mem_cons.mp hin with h | h
        · exact absurd h.symm hc
        · exact h
      have ih' := ih (removeStep now acc c) m (by rw [hcid]; exact hin')
        (by rw [hcid, hpres.1]; exact honline)
        (by rw [hcid, hpres.2]; exact hmeta)
      rw [hcid] at ih'
      exact ih'

/-- C1 (amended): when the `removeAwarenessStates` client list
contains the local client and the local client is currently online
(its `states` entry present, its meta entry present), its `states`
entry IS cleared like any other listed client's; additionally its meta
clock is incremented by one with `lastUpdated` set to the current
time, and it is reported in the `removed` event payload. -/
theorem removeAwarenessStates_self_amended (aw : Awareness) (clients : List Nat)
    (now : Nat) (m : MetaClientState)
    (hin : aw.clientID ∈ clients)
    (honline : (aw.states aw.clientID).isSome = true)
    (hmeta : aw.meta aw.clientID = some m) :
    (removeAwarenessStates aw clients now).1.states aw.clientID = none ∧
    (removeAwarenessStates aw clients now).1.meta aw.clientID = some ⟨m.clock + 1, now⟩ ∧
    aw.clientID ∈ (removeAwarenessStates aw clients now).2 :=
  removeFold_self now clients (aw, []) m hin honline hmeta

/-- Witness for C1's amended statement at `awExample`. -/
theorem removeAwarenessStates_self_amended_witness :
    (removeAwarenessStates awExample [0] 9).1.states awExample.clientID = none ∧
    (removeAwarenessStates awExample [0] 9).1.meta awExample.clientID = some ⟨1 + 1, 9⟩ ∧
    awExample.clientID ∈ (removeAwarenessStates awExample [0] 9).2 :=
  removeAwarenessStates_self_amended awExample [0] 9 ⟨1, 5⟩ (by decide) (by decide) rfl

/-! ## C7: idempotence -/

/-- `clockOf` reads the clock of a present meta entry. -/
theorem clockOf_eq_of_meta (aw : Awareness) (c : Nat) (mm : MetaClientState)
    (h : aw.meta c = some mm) : clockOf aw c = mm.clock := by
  unfold clockOf
  rw [h]

/-- `clockOf` after rewriting the client's own meta entry. -/
theorem clockOf_update_self (cid : Nat) (st : Nat → Option Json)
    (mt : Nat → Option MetaClientState) (c clk lu : Nat) :
    clockOf ⟨cid, st, mapSet mt c ⟨clk, lu⟩⟩ c = clk := by
  unfold clockOf
  rw [show (⟨cid, st, mapSet mt c ⟨clk, lu⟩⟩ : Awareness).meta = mapSet mt c ⟨clk, lu⟩ from rfl,
    mapSet_self]

/-- Acceptance of an entry, spelt out on the components. -/
theorem accept_iff (aw : Awareness) (c k : Nat) (s : Json) :
    acceptCond aw (c, k, s) ↔
      (clockOf aw c < k ∨
        (clockOf aw c = k ∧ s.isNull = true ∧ (aw.states c).isSome = true)) :=
  Iff.rfl

/-- Rejection of an entry, spelt out arithmetically. -/
theorem not_accept_iff (aw : Awareness) (c k : Nat) (s : Json) :
    ¬ acceptCond aw (c, k, s) ↔
      (k ≤ clockOf aw c ∧
        (clockOf aw c = k → s.isNull = true → (aw.states c).isSome = false)) := by
  rw [accept_iff]
  constructor
  · intro h
    refine ⟨?_, ?_⟩
    · by_contra hlt
      exact h (Or.inl (by omega))
    · intro heq hn
      by_contra hq
      simp only [Bool.not_eq_false] at hq
      exact h (Or.inr ⟨heq, hn, hq⟩)
  · rintro ⟨hle, himp⟩ (hlt | ⟨heq, hn, hsome⟩)
    · omega
    · rw [himp heq hn] at hsome
      exact absurd hsome (by decide)

/-- A rejected entry leaves the store untouched. -/
theorem applyEntryAw_rejected (now : Nat) (aw : Awareness) (c k : Nat) (s : Json)
    (h : ¬ acceptCond aw (c, k, s)) : applyEntryAw now aw (c, k, s) = aw := by
  rw [applyEntryAw_eq, if_neg h]

/-- Applying an entry only touches that entry's client. -/
theorem applyEntryAw_other (now : Nat) (aw : Awareness) (c k : Nat) (s : Json) (x : Nat)
    (hx : x ≠ c) :
    (applyEntryAw now aw (c, k, s)).states x = aw.states x ∧
    (applyEntryAw now aw (c, k, s)).meta x = aw.meta x := by
  rw [applyEntryAw_eq]
  by_cases h : acceptCond aw (c, k, s)
  · rw [if_pos h]
    by_cases hn : s.isNull = true
    · rw [if_pos hn]
      by_cases hself : c = aw.clientID ∧ (aw.getLocalState).isSome = true
      · rw [if_pos hself]
        exact ⟨rfl, mapSet_other _ _ _ _ hx⟩
      · rw [if_neg hself]
        exact ⟨mapDelete_other _ _ _ hx, mapSet_other _ _ _ _ hx⟩
    · rw [if_neg hn]
      exact ⟨mapSet_other _ _ _ _ hx, mapSet_other _ _ _ _ hx⟩
  · rw [if_neg h]
    exact ⟨rfl, rfl⟩

/-- Applying an entry never decreases any client's clock. -/
theorem applyEntryAw_clock_mono (now : Nat) (aw : Awareness) (c k : Nat) (s : Json) (x : Nat) :
    clockOf aw x ≤ clockOf (applyEntryAw now aw (c, k, s)) x := by
  by_cases hx : x = c
  · subst hx
    by_cases h : acceptCond aw (x, k, s)
    · have hub : clockOf aw x ≤ k := by
        rcases (accept_iff aw x k s).mp h with hlt | ⟨heq, _⟩ <;> omega
      rw [applyEntryAw_eq, if_pos h]
      by_cases hn : s.isNull = true
      · rw [if_pos hn]
        by_cases hself : x = aw.clientID ∧ (aw.getLocalState).isSome = true
        · rw [if_pos hself, clockOf_update_self]
          omega
        · rw [if_neg hself, clockOf_update_self]
          omega
      · rw [if_neg hn, clockOf_update_self]
        omega
    · rw [applyEntryAw_rejected now aw x k s h]
  · have ho := (applyEntryAw_other now aw c k s x hx).2
    unfold clockOf
    rw [ho]

/-- An accepted entry pushes its client's clock to at least the
entry's clock. -/
theorem applyEntryAw_clock_accepted (now : Nat) (aw : Awareness) (c k : Nat) (s : Json)
    (h : acceptCond aw (c, k, s)) :
    k ≤ clockOf (applyEntryAw now aw (c, k, s)) c := by
  rw [applyEntryAw_eq, if_pos h]
  by_cases hn : s.isNull = true
  · rw [if_pos hn]
    by_cases hself : c = aw.clientID ∧ (aw.getLocalState).isSome = true
    · rw [if_pos hself, clockOf_update_self]
      omega
    · rw [if_neg hself, clockOf_update_self]
  · rw [if_neg hn, clockOf_update_self]

/-- Applying any entry right after it has been applied rejects it. -/
theorem applyEntryAw_stable (now : Nat) (aw : Awareness) (c k : Nat) (s : Json) :
    ¬ acceptCond (applyEntryAw now aw (c, k, s)) (c, k, s) := by
  by_cases h : acceptCond aw (c, k, s)
  · rw [not_accept_iff, applyEntryAw_eq, if_pos h]
    by_cases hn : s.isNull = true
    · rw [if_pos hn]
      by_cases hself : c = aw.clientID ∧ (aw.getLocalState).isSome = true
      · rw [if_pos hself, clockOf_update_self]
        exact ⟨by omega, fun hh => absurd hh (by omega)⟩
      · rw [if_neg hself, clockOf_update_self]
        refine ⟨le_refl _, fun _ _ => ?_⟩
        rw [show (({ aw with
          states := mapDelete aw.states c,
          meta := mapSet aw.meta c ⟨k, now⟩ } : Awareness).states c) = none from mapDelete_self _ _]
        rfl
    · rw [if_neg hn, clockOf_update_self]
      exact ⟨le_refl _, fun _ hnn => absurd hnn hn⟩
  · rw [applyEntryAw_rejected now aw c k s h]
    exact h

/-- Rejection of an entry is preserved by applying any further entry. -/
theorem applyEntryAw_preserves_stable (now : Nat) (aw : Awareness) (c k : Nat) (s : Json)
    (c2 k2 : Nat) (s2 : Json) (h : ¬ acceptCond aw (c, k, s)) :
    ¬ acceptCond (applyEntryAw now aw (c2, k2, s2)) (c, k, s) := by
  by_cases hacc : acceptCond aw (c2, k2, s2)
  · rw [not_accept_iff] at h ⊢
    obtain ⟨hle, himp⟩ := h
    by_cases hx : c = c2
    · subst hx
      have hmono := applyEntryAw_clock_mono now aw c k2 s2 c
      have hacc2 := applyEntryAw_clock_accepted now aw c k2 s2 hacc
      refine ⟨by omega, fun heq hn => ?_⟩
      exfalso
      rcases (accept_iff aw c k2 s2).mp hacc with hlt | ⟨heq2, hn2, hsome2⟩
      · omega
      · have h1 : clockOf aw c = k := by omega
        rw [himp h1 hn] at hsome2
        exact absurd hsome2 (by decide)
    · have ho := applyEntryAw_other now aw c2 k2 s2 c hx
      have hclk : clockOf (applyEntryAw now aw (c2, k2, s2)) c = clockOf aw c := by
        unfold clockOf
        rw [ho.2]
      rw [hclk, ho.1]
      exact ⟨hle, himp⟩
  · rw [applyEntryAw_rejected now aw c2 k2 s2 hacc]
    exact h

/-- Rejection of an entry is preserved by a whole fold of further
entries. -/
theorem applyEntriesFold_preserves_stable (now : Nat) :
    ∀ (l : List AwarenessEntry) (aw : Awareness) (c k : Nat) (s : Json),
      ¬ acceptCond aw (c, k, s) →
      ¬ acceptCond (l.foldl (applyEntryAw now) aw) (c, k, s) := by
  intro l
  induction l with
  | nil => exact fun aw c k s h => h
  | cons e t ih =>
    intro aw c k s h
    rw [List.foldl_cons]
    exact ih _ c k s (applyEntryAw_preserves_stable now aw c k s e.1 e.2.1 e.2.2 h)

/-- After a whole pass over an entry list, every entry of the list is
rejected. -/
theorem applyEntriesFold_all_stable (now : Nat) :
    ∀ (l : List AwarenessEntry) (aw : Awareness) (e : AwarenessEntry),
      e ∈ l → ¬ acceptCond (l.foldl (applyEntryAw now) aw) e := by
  intro l
  induction l with
  | nil => exact fun aw e h => absurd h (List.not_mem_nil _)
  | cons e2 t ih =>
    intro aw e he
    rw [List.foldl_cons]
    rcases List.mem_cons.mp he with h | h
    · subst h
      exact applyEntriesFold_preserves_stable now t _ e.1 e.2.1 e.2.2
        (applyEntryAw_stable now aw e.1 e.2.1 e.2.2)
    · exact ih _ e h

/-- A fold over entries that are all rejected is the identity. -/
theorem applyEntriesFold_no_op (now : Nat) :
    ∀ (l : List AwarenessEntry) (aw : Awareness),
      (∀ e ∈ l, ¬ acceptCond aw e) → l.foldl (applyEntryAw now) aw = aw := by
  intro l
  induction l with
  | nil => exact fun aw _ => rfl
  | cons e t ih =>
    intro aw h
    rw [List.foldl_cons,
      applyEntryAw_rejected now aw e.1 e.2.1 e.2.2 (h e (List.mem_cons_self _ _)),
      ih aw (fun x hx => h x (List.mem_cons_of_mem _ hx))]

/-- The store component of the full loop body equals the pure
states/meta transition. -/
theorem applyEntryStep_aw (now : Nat) (acc : ApplyAcc) (e : AwarenessEntry) :
    (applyEntryStep now acc e).aw = applyEntryAw now acc.aw e := by
  obtain ⟨c, k, s⟩ := e
  rw [applyEntryStep_eq]
  by_cases h : acceptCond acc.aw (c, k, s)
  · rw [if_pos h]
    split
    · rfl
    · split
      · rfl
      · split <;> rfl
  · rw [if_neg h, applyEntryAw_rejected now acc.aw c k s h]

/-- The store component of the full fold equals the pure fold. -/
theorem applyAwarenessEntries_aw (now : Nat) :
    ∀ (l : List AwarenessEntry) (acc : ApplyAcc),
      (l.foldl (applyEntryStep now) acc).aw = l.foldl (applyEntryAw now) acc.aw := by
  intro l
  induction l with
  | nil => exact fun acc => rfl
  | cons e t ih =>
    intro acc
    rw [List.foldl_cons, List.foldl_cons, ih, applyEntryStep_aw]

/-- C7: merging the same register state twice in a row equals merging
it once, and applying the same decoded awareness update twice (at any
two times) leaves the resulting store — its `states` and all meta
entries, clocks included — identical to applying it once. -/
theorem merge_apply_idempotent :
    (∀ (α : Type) (r : LWWRegister α) (s : IState α), (r.merge s).merge s = r.merge s) ∧
    (∀ (now1 now2 : Nat) (aw : Awareness) (u : List AwarenessEntry),
      (applyAwarenessEntries now2 (applyAwarenessEntries now1 aw u).aw u).aw =
        (applyAwarenessEntries now1 aw u).aw) := by
  constructor
  · intro α r s
    obtain ⟨rid, rstate⟩ := r
    by_cases h1 : rstate.timestamp > s.timestamp
    · have hkeep : LWWRegister.merge ⟨rid, rstate⟩ s = ⟨rid, rstate⟩ := by
        unfold LWWRegister.merge
        rw [if_pos h1]
      rw [hkeep, hkeep]
    · by_cases h2 : rstate.timestamp = s.timestamp ∧ s.peer ≠ rstate.peer
      · have hkeep : LWWRegister.merge ⟨rid, rstate⟩ s = ⟨rid, rstate⟩ := by
          unfold LWWRegister.merge
          rw [if_neg h1, if_pos h2]
        rw [hkeep, hkeep]
      · have hadopt : LWWRegister.merge ⟨rid, rstate⟩ s = ⟨rid, s⟩ := by
          unfold LWWRegister.merge
          rw [if_neg h1, if_neg h2]
        rw [hadopt]
        have hagain : LWWRegister.merge ⟨rid, s⟩ s = ⟨rid, s⟩ := by
          unfold LWWRegister.merge
          rw [if_neg (lt_irrefl s.timestamp), if_neg (fun hc => hc.2 rfl)]
        rw [hagain]
  · intro now1 now2 aw u
    have h1 : ∀ (now : Nat) (b : Awareness),
        (applyAwarenessEntries now b u).aw = u.foldl (applyEntryAw now) b := by
      intro now b
      exact applyAwarenessEntries_aw now u ⟨b, [], [], [], []⟩
    rw [h1, h1]
    exact applyEntriesFold_no_op now2 u _
      (fun e he => applyEntriesFold_all_stable now1 u aw e he)

/-! ## C8: wire round-trip — binary layer lemmas -/

/-- Varuint round-trip: reading back a written number consumes exactly
its bytes. -/
theorem readVarUint_writeVarUint : ∀ (n : Nat) (rest : List Nat),
    readVarUint (writeVarUint n ++ rest) = some (n, rest) := by
  intro n
  induction n using Nat.strong_induction_on with
  | _ n ih =>
    intro rest
    by_cases h : n > 127
    · rw [writeVarUint, dif_pos h]
      simp only [List.cons_append]
      rw [readVarUint, if_pos (by omega : 128 + n % 128 ≥ 128)]
      rw [ih (n / 128) (Nat.div_lt_self (by omega) (by omega)) rest]
      simp only [Option.map_some']
      rw [show 128 + n % 128 - 128 + 128 * (n / 128) = n from by omega]
    · rw [writeVarUint, dif_neg h]
      simp only [List.cons_append, List.nil_append]
      rw [readVarUint, if_neg (by omega)]

/-- UTF-8 character round-trip: decoding after an encoded character
peels exactly that character. -/
theorem utf8DecodeChar_encodeChar (c : Char) (rest : List Nat) :
    utf8DecodeChar (utf8EncodeChar c ++ rest) = some (c, rest) := by
  have hval : c.toNat < 1114112 := by
    have h := c.valid
    simp only [Char.toNat]
    rcases h with h | h
    · omega
    · omega
  simp only [utf8EncodeChar]
  by_cases h1 : c.toNat < 128
  · rw [if_pos h1]
    simp only [List.cons_append, List.nil_append]
    rw [utf8DecodeChar, if_pos h1, Char.ofNat_toNat]
  · by_cases h2 : c.toNat < 2048
    · rw [if_neg h1, if_pos h2]
      simp only [List.cons_append, List.nil_append]
      rw [utf8DecodeChar, if_neg (by omega), if_pos (by omega), if_pos (by omega)]
      rw [utf8Cont, if_pos (by omega)]
      simp only [Option.map_some']
      rw [show (192 + c.toNat / 64 - 192) * 64 + (128 + c.toNat % 64 - 128) = c.toNat
        from by omega, Char.ofNat_toNat]
    · by_cases h3 : c.toNat < 65536
      · rw [if_neg h1, if_neg h2, if_pos h3]
        simp only [List.cons_append, List.nil_append]
        rw [utf8DecodeChar, if_neg (by omega), if_neg (by omega), if_pos (by omega)]
        rw [utf8Cont, if_pos (by omega)]
        simp only [Option.some_bind]
        rw [utf8Cont, if_pos (by omega)]
        simp only [Option.map_some']
        rw [show (224 + c.toNat / 4096 - 224) * 4096 + (128 + c.toNat / 64 % 64 - 128) * 64 +
          (128 + c.toNat % 64 - 128) = c.toNat from by omega, Char.ofNat_toNat]
      · rw [if_neg h1, if_neg h2, if_neg h3]
        simp only [List.cons_append, List.nil_append]
        rw [utf8DecodeChar, if_neg (by omega), if_neg (by omega), if_neg (by omega)]
        rw [utf8Cont, if_pos (by omega)]
        simp only [Option.some_bind]
        rw [utf8Cont, if_pos (by omega)]
        simp only [Option.some_bind]
        rw [utf8Cont, if_pos (by omega)]
        simp only [Option.map_some']
        rw [show (240 + c.toNat / 262144 - 240) * 262144 +
          (128 + c.toNat / 4096 % 64 - 128) * 4096 + (128 + c.toNat / 64 % 64 - 128) * 64 +
          (128 + c.toNat % 64 - 128) = c.toNat from by omega, Char.ofNat_toNat]

/-- Every encoded character occupies at least one byte. -/
theorem utf8EncodeChar_length_pos (c : Char) : 0 < (utf8EncodeChar c).length := by
  simp only [utf8EncodeChar]
  split
  · simp
  · split
    · simp
    · split
      · simp
      · simp

/-- Fueled UTF-8 decode round-trip with any sufficient fuel. -/
theorem utf8DecodeGo_encode : ∀ (s : List Char) (fuel : Nat),
    (utf8Encode s).length ≤ fuel → utf8DecodeGo fuel (utf8Encode s) = some s := by
  intro s
  induction s with
  | nil => intro fuel _; rw [show utf8Encode [] = [] from rfl]; cases fuel <;> rfl
  | cons c t ih =>
    intro fuel hf
    have hchar := utf8DecodeChar_encodeChar c (utf8Encode t)
    have hpos := utf8EncodeChar_length_pos c
    rw [utf8Encode] at hf ⊢
    rw [List.length_append] at hf
    obtain ⟨b, bs, hbs⟩ : ∃ b bs, utf8EncodeChar c = b :: bs := by
      cases hb : utf8EncodeChar c with
      | nil => rw [hb] at hpos; exact absurd hpos (by simp)
      | cons b bs => exact ⟨b, bs, rfl⟩
    obtain ⟨f, rfl⟩ : ∃ f, fuel = f + 1 := by
      rw [hbs] at hf
      cases fuel with
      | zero => simp at hf
      | succ f => exact ⟨f, rfl⟩
    rw [hbs, List.cons_append, utf8DecodeGo, ← List.cons_append, ← hbs, hchar]
    simp only [Option.some_bind]
    rw [ih f (by rw [hbs] at hf; simp at hf ⊢; omega)]
    rfl

/-- UTF-8 string round-trip. -/
theorem utf8Decode_encode (s : List Char) : utf8Decode (utf8Encode s) = some s :=
  utf8DecodeGo_encode s (utf8Encode s).length (le_refl _)

/-- Varstring round-trip. -/
theorem readVarString_writeVarString (s : List Char) (rest : List Nat) :
    readVarString (writeVarString s ++ rest) = some (s, rest) := by
  unfold writeVarString readVarString
  rw [List.append_assoc, readVarUint_writeVarUint]
  simp only [Option.some_bind]
  rw [if_pos (by rw [List.length_append]; omega)]
  rw [List.take_left, List.drop_left, utf8Decode_encode]
  rfl

/-! ## C8: wire round-trip — decimal number lemmas -/

/-- The code point of a digit character. -/
theorem toNat_digitChar (d : Nat) (hd : d < 10) : (digitChar d).toNat = 48 + d := by
  have hv : (48 + d).isValidChar := by
    constructor
    omega
  simp [digitChar, Char.ofNat, hv, Char.ofNatAux, Char.toNat, UInt32.toNat, UInt32.ofNatCore]

/-- Digit characters satisfy the digit test. -/
theorem isDigitChar_digitChar (d : Nat) (hd : d < 10) : isDigitChar (digitChar d) = true := by
  unfold isDigitChar
  rw [toNat_digitChar d hd]
  simp only [Bool.and_eq_true, decide_eq_true_eq]
  omega

/-- A digit character differs from any character whose code point is
outside the digit range. -/
theorem digitChar_ne (d : Nat) (hd : d < 10) (ch : Char)
    (hch : ch.toNat < 48 ∨ 57 < ch.toNat) : digitChar d ≠ ch := by
  intro h
  have h2 := congrArg Char.toNat h
  rw [toNat_digitChar d hd] at h2
  omega

/-- Digits produced by `digitsRev` are below 10. -/
theorem digitsRev_lt : ∀ n, ∀ d ∈ digitsRev n, d < 10 := by
  intro n
  induction n using Nat.strong_induction_on with
  | _ n ih =>
    cases n with
    | zero => intro d hd; rw [digitsRev] at hd; exact absurd hd (List.not_mem_nil _)
    | succ m =>
      intro d hd
      rw [digitsRev] at hd
      rcases List.mem_cons.mp hd with h | h
      · omega
      · exact ih ((m + 1) / 10) (Nat.div_lt_self (by omega) (by omega)) d h

/-- `digitsRev` is the little-endian decimal expansion. -/
theorem valRev_digitsRev : ∀ n, valRev (digitsRev n) = n := by
  intro n
  induction n using Nat.strong_induction_on with
  | _ n ih =>
    cases n with
    | zero => simp [digitsRev, valRev]
    | succ m =>
      rw [digitsRev, valRev, ih ((m + 1) / 10) (Nat.div_lt_self (by omega) (by omega))]
      omega

/-- Digits of a positive number are non-empty. -/
theorem digitsRev_ne_nil (n : Nat) (h : n ≠ 0) : digitsRev n ≠ [] := by
  cases n with
  | zero => exact absurd rfl h
  | succ m => rw [digitsRev]; simp

/-- Folding the big-endian digit accumulator over a reversed digit
list computes scale-shifted place value. -/
theorem foldl_step_reverse : ∀ (l : List Nat) (a : Nat),
    List.foldl (fun x d => x * 10 + d) a l.reverse = a * 10 ^ l.length + valRev l := by
  intro l
  induction l with
  | nil => intro a; simp [valRev]
  | cons d t ih =>
    intro a
    rw [List.reverse_cons, List.foldl_append, ih a, valRev]
    simp only [List.foldl_cons, List.foldl_nil, List.length_cons]
    rw [pow_succ]
    ring

/-- A maximal digit run stops at a non-digit. -/
theorem parseNatAux_stop (a : Nat) (rest : List Char) (h : headNotDigit rest) :
    parseNatAux a rest = (a, rest) := by
  cases rest with
  | nil => rfl
  | cons c r =>
    rw [parseNatAux, if_neg (by rw [headNotDigit] at h; simp [h])]

/-- Parsing a rendered digit run accumulates its value and stops
exactly at its end. -/
theorem parseNatAux_digits : ∀ (ds : List Nat) (a : Nat) (rest : List Char),
    (∀ d ∈ ds, d < 10) → headNotDigit rest →
    parseNatAux a (ds.map digitChar ++ rest) =
      (ds.foldl (fun x d => x * 10 + d) a, rest) := by
  intro ds
  induction ds with
  | nil => intro a rest _ h; simpa using parseNatAux_stop a rest h
  | cons d dt ih =>
    intro a rest hds h
    have hd : d < 10 := hds d (List.mem_cons_self _ _)
    simp only [List.map_cons, List.cons_append, List.foldl_cons]
    rw [parseNatAux, if_pos (by simp [isDigitChar_digitChar d hd]), toNat_digitChar d hd,
      show 48 + d - 48 = d from by omega,
      ih (a * 10 + d) rest (fun x hx => hds x (List.mem_cons_of_mem _ hx)) h]

/-- Parsing a rendered natural number recovers it and stops exactly at
its end. -/
theorem parseNat_natChars (n : Nat) (rest : List Char) (h : headNotDigit rest) :
    parseNat (natChars n ++ rest) = some (n, rest) := by
  by_cases h0 : n = 0
  · subst h0
    rw [natChars, if_pos rfl]
    simp only [List.cons_append, List.nil_append]
    rw [parseNat, if_pos (by decide)]
    rw [show ('0' : Char).toNat - 48 = 0 from by decide, parseNatAux_stop 0 rest h]
  · obtain ⟨d0, dt, hds⟩ : ∃ d0 dt, (digitsRev n).reverse = d0 :: dt := by
      cases hr : (digitsRev n).reverse with
      | nil => exact absurd (List.reverse_eq_nil_iff.mp hr) (digitsRev_ne_nil n h0)
      | cons d0 dt => exact ⟨d0, dt, rfl⟩
    have hbound : ∀ d ∈ d0 :: dt, d < 10 := by
      intro d hd
      rw [← hds] at hd
      exact digitsRev_lt n d (List.mem_reverse.mp hd)
    have hd0 : d0 < 10 := hbound d0 (List.mem_cons_self _ _)
    have hval : List.foldl (fun x d => x * 10 + d) 0 (d0 :: dt) = n := by
      rw [← hds, foldl_step_reverse]
      simp [valRev_digitsRev]
    rw [natChars, if_neg h0, hds]
    simp only [List.map_cons, List.cons_append]
    rw [parseNat, if_pos (by simp [isDigitChar_digitChar d0 hd0]), toNat_digitChar d0 hd0,
      show 48 + d0 - 48 = d0 from by omega,
      parseNatAux_digits dt d0 rest (fun x hx => hbound x (List.mem_cons_of_mem _ hx)) h]
    rw [List.foldl_cons] at hval
    simp only [Nat.zero_mul, Nat.zero_add] at hval
    rw [hval]

/-- The first character of a rendered natural number is a digit. -/
theorem natChars_head (n : Nat) : ∃ d t, natChars n = digitChar d :: t ∧ d < 10 := by
  by_cases h0 : n = 0
  · subst h0
    exact ⟨0, [], by rw [natChars, if_pos rfl, show digitChar 0 = '0' from by decide], by omega⟩
  · obtain ⟨d0, dt, hds⟩ : ∃ d0 dt, (digitsRev n).reverse = d0 :: dt := by
      cases hr : (digitsRev n).reverse with
      | nil => exact absurd (List.reverse_eq_nil_iff.mp hr) (digitsRev_ne_nil n h0)
      | cons d0 dt => exact ⟨d0, dt, rfl⟩
    refine ⟨d0, dt.map digitChar, ?_, ?_⟩
    · rw [natChars, if_neg h0, hds, List.map_cons]
    · exact digitsRev_lt n d0 (List.mem_reverse.mp (by rw [hds]; exact List.mem_cons_self _ _))

/-! ## C8: wire round-trip — JSON text lemmas -/

/-- Stripping a literal off itself succeeds. -/
theorem stripLit_exact : ∀ (p l : List Char), stripLit p (p ++ l) = some l := by
  intro p
  induction p with
  | nil => intro l; rfl
  | cons c t ih =>
    intro l
    rw [List.cons_append, stripLit, if_pos rfl]
    exact ih l

/-- Stripping `ull` (after `n`). -/
theorem stripLit_ull (rest : List Char) :
    stripLit ['u', 'l', 'l'] ('u' :: 'l' :: 'l' :: rest) = some rest :=
  stripLit_exact ['u', 'l', 'l'] rest

/-- Stripping `rue` (after `t`). -/
theorem stripLit_rue (rest : List Char) :
    stripLit ['r', 'u', 'e'] ('r' :: 'u' :: 'e' :: rest) = some rest :=
  stripLit_exact ['r', 'u', 'e'] rest

/-- Stripping `alse` (after `f`). -/
theorem stripLit_alse (rest : List Char) :
    stripLit ['a', 'l', 's', 'e'] ('a' :: 'l' :: 's' :: 'e' :: rest) = some rest :=
  stripLit_exact ['a', 'l', 's', 'e'] rest

/-- String-body round-trip: parsing an escaped string recovers it and
stops after the closing quote. -/
theorem parseStr_escape : ∀ (s rest : List Char),
    parseStr (escapeChars s ++ '"' :: rest) = some (s, rest) := by
  intro s
  induction s with
  | nil =>
    intro rest
    cases rest with
    | nil => rfl
    | cons r0 rr =>
      rw [show escapeChars [] ++ '"' :: r0 :: rr = '"' :: r0 :: rr from rfl]
      rw [parseStr, if_pos rfl]
  | cons c t ih =>
    intro rest
    rw [show escapeChars (c :: t) = escapeChar c ++ escapeChars t from rfl]
    by_cases hc : c = '"' ∨ c = '\\'
    · rw [escapeChar, if_pos hc]
      rw [show (['\\', c] ++ escapeChars t) ++ '"' :: rest =
        '\\' :: c :: (escapeChars t ++ '"' :: rest) from by simp]
      rw [parseStr, if_neg (by decide), if_pos rfl, if_pos hc, ih rest]
      rfl
    · rw [escapeChar, if_neg hc]
      push_neg at hc
      obtain ⟨x, xs, hx⟩ : ∃ x xs, escapeChars t ++ '"' :: rest = x :: xs := by
        cases hh : escapeChars t ++ '"' :: rest with
        | nil => exact absurd hh (by simp)
        | cons x xs => exact ⟨x, xs, rfl⟩
      rw [show ([c] ++ escapeChars t) ++ '"' :: rest = c :: (escapeChars t ++ '"' :: rest)
        from by simp, hx, parseStr, if_neg hc.1, if_neg hc.2, ← hx, ih rest]
      rfl

/-- The head character of a rendered JSON value is never the array
terminator. -/
theorem stringify_head (j : Json) :
    ∃ ch t, jsonStringify j = ch :: t ∧ ch ≠ ']' := by
  cases j with
  | null =>
    refine ⟨'n', ['u', 'l', 'l'], ?_, by decide⟩
    rw [jsonStringify]
  | bool b =>
    cases b with
    | true =>
      refine ⟨'t', ['r', 'u', 'e'], ?_, by decide⟩
      rw [jsonStringify]
    | false =>
      refine ⟨'f', ['a', 'l', 's', 'e'], ?_, by decide⟩
      rw [jsonStringify]
  | num i =>
    rw [show jsonStringify (.num i) = intChars i from by rw [jsonStringify], intChars]
    by_cases hi : i < 0
    · rw [if_pos hi]
      exact ⟨'-', _, rfl, by decide⟩
    · rw [if_neg hi]
      obtain ⟨d, tl, heq, hd⟩ := natChars_head i.toNat
      exact ⟨digitChar d, tl, heq, digitChar_ne d hd ']' (by decide)⟩
  | str s =>
    refine ⟨'"', escapeChars s ++ ['"'], ?_, by decide⟩
    rw [jsonStringify]
    simp
  | arr xs =>
    cases xs with
    | nil =>
      refine ⟨'[', [']'], ?_, by decide⟩
      rw [jsonStringify]
    | cons x t =>
      refine ⟨'[', (jsonStringify x ++ stringifyArrTail t) ++ [']'], ?_, by decide⟩
      rw [jsonStringify]
      simp
  | obj kvs =>
    cases kvs with
    | nil =>
      refine ⟨'\x7b', ['\x7d'], ?_, by decide⟩
      rw [jsonStringify]
    | cons kv t =>
      obtain ⟨k, v⟩ := kv
      refine ⟨'\x7b', (stringifyMember k v ++ stringifyObjTail t) ++ ['\x7d'], ?_, by decide⟩
      rw [jsonStringify]
      simp

/-- Every value needs at least one unit of fuel. -/
theorem jM_pos (j : Json) : 1 ≤ jM j := by
  cases j <;> rw [jM] <;> omega

/-- Fuel equation for a non-empty array tail. -/
theorem jMA_cons (x : Json) (t : List Json) : jMA (x :: t) = max (jM x) (jMA t) + 1 := by
  rw [jMA]

/-- Fuel equation for a non-empty object tail. -/
theorem jMO_cons (k : List Char) (v : Json) (t : List (List Char × Json)) :
    jMO ((k, v) :: t) = max (jM v) (jMO t) + 1 := by
  rw [jMO]

/-- Unfolding equation of `parseVal` at positive fuel. -/
theorem parseVal_succ (fuel : Nat) (c : Char) (rest : List Char) :
    parseVal (fuel + 1) (c :: rest) =
      (if c = 'n' then
        (stripLit ['u', 'l', 'l'] rest).map (fun r => (Json.null, r))
      else if c = 't' then
        (stripLit ['r', 'u', 'e'] rest).map (fun r => (Json.bool true, r))
      else if c = 'f' then
        (stripLit ['a', 'l', 's', 'e'] rest).map (fun r => (Json.bool false, r))
      else if c = '"' then
        (parseStr rest).map (fun p => (Json.str p.1, p.2))
      else if c = '[' then
        if rest.head? = some ']' then some (Json.arr [], rest.tail)
        else (parseArrItems fuel rest).map (fun p => (Json.arr p.1, p.2))
      else if c = '\x7b' then
        if rest.head? = some '\x7d' then some (Json.obj [], rest.tail)
        else (parseObjItems fuel rest).map (fun p => (Json.obj p.1, p.2))
      else if c = '-' then
        (parseNat rest).map (fun p => (Json.num (-(p.1 : Int)), p.2))
      else if isDigitChar c then
        (parseNat (c :: rest)).map (fun p => (Json.num (p.1 : Int), p.2))
      else none) := by
  rw [parseVal]

/-- Unfolding equation of `parseArrItems` at positive fuel. -/
theorem parseArrItems_succ (fuel : Nat) (l : List Char) :
    parseArrItems (fuel + 1) l =
      (parseVal fuel l).bind (fun p =>
        if p.2.head? = some ']' then some ([p.1], p.2.tail)
        else if p.2.head? = some ',' then
          (parseArrItems fuel p.2.tail).map (fun q => (p.1 :: q.1, q.2))
        else none) := by
  rw [parseArrItems]

/-- Unfolding equation of `parseObjItems` at positive fuel. -/
theorem parseObjItems_succ (fuel : Nat) (l : List Char) :
    parseObjItems (fuel + 1) l =
      (if l.head? = some '"' then
        (parseStr l.tail).bind (fun pk =>
          if pk.2.head? = some ':' then
            (parseVal fuel pk.2.tail).bind (fun pv =>
              if pv.2.head? = some '\x7d' then some ([(pk.1, pv.1)], pv.2.tail)
              else if pv.2.head? = some ',' then
                (parseObjItems fuel pv.2.tail).map (fun q => ((pk.1, pv.1) :: q.1, q.2))
              else none)
          else none)
      else none) := by
  rw [parseObjItems]

/-- Parser/stringifier round-trip, by induction on fuel: any rendered
value followed by a non-digit-leading tail parses back exactly, and
likewise for rendered array and object tails. -/
theorem parse_stringify_main : ∀ fuel : Nat,
    (∀ (j : Json) (rest : List Char), jM j ≤ fuel → headNotDigit rest →
      parseVal fuel (jsonStringify j ++ rest) = some (j, rest)) ∧
    (∀ (x : Json) (t : List Json) (rest : List Char), jMA (x :: t) ≤ fuel →
      parseArrItems fuel (jsonStringify x ++ (stringifyArrTail t ++ ']' :: rest)) =
        some (x :: t, rest)) ∧
    (∀ (k : List Char) (v : Json) (t : List (List Char × Json)) (rest : List Char),
      jMO ((k, v) :: t) ≤ fuel →
      parseObjItems fuel (stringifyMember k v ++ (stringifyObjTail t ++ '\x7d' :: rest)) =
        some ((k, v) :: t, rest)) := by
  intro fuel
  induction fuel with
  | zero =>
    refine ⟨fun j rest hj _ => ?_, fun x t rest hb => ?_, fun k v t rest hb => ?_⟩
    · have := jM_pos j
      omega
    · rw [jMA_cons] at hb
      omega
    · rw [jMO_cons] at hb
      omega
  | succ fuel ih =>
    obtain ⟨ihV, ihA, ihO⟩ := ih
    refine ⟨?_, ?_, ?_⟩
    · intro j rest hj hrest
      cases j with
      | null =>
        rw [show jsonStringify Json.null ++ rest = 'n' :: 'u' :: 'l' :: 'l' :: rest
          from by rw [jsonStringify]; rfl]
        rw [parseVal_succ, if_pos rfl, stripLit_ull]
        rfl
      | bool b =>
        cases b with
        | true =>
          rw [show jsonStringify (Json.bool true) ++ rest = 't' :: 'r' :: 'u' :: 'e' :: rest
            from by rw [jsonStringify]; rfl]
          rw [parseVal_succ, if_neg (by decide), if_pos rfl, stripLit_rue]
          rfl
        | false =>
          rw [show jsonStringify (Json.bool false) ++ rest =
            'f' :: 'a' :: 'l' :: 's' :: 'e' :: rest from by rw [jsonStringify]; rfl]
          rw [parseVal_succ, if_neg (by decide), if_neg (by decide), if_pos rfl, stripLit_alse]
          rfl
      | num i =>
        have hs : jsonStringify (Json.num i) = intChars i := by rw [jsonStringify]
        rw [hs, intChars]
        by_cases hi : i < 0
        · rw [if_pos hi, List.cons_append, parseVal_succ,
            if_neg (by decide), if_neg (by decide), if_neg (by decide), if_neg (by decide),
            if_neg (by decide), if_neg (by decide), if_pos rfl,
            parseNat_natChars i.natAbs rest hrest]
          simp only [Option.map_some']
          rw [show -((i.natAbs : Nat) : Int) = i from by omega]
        · rw [if_neg hi]
          obtain ⟨d, tl, heq, hd⟩ := natChars_head i.toNat
          rw [heq, List.cons_append, parseVal_succ,
            if_neg (digitChar_ne d hd 'n' (by decide)),
            if_neg (digitChar_ne d hd 't' (by decide)),
            if_neg (digitChar_ne d hd 'f' (by decide)),
            if_neg (digitChar_ne d hd '"' (by decide)),
            if_neg (digitChar_ne d hd '[' (by decide)),
            if_neg (digitChar_ne d hd '\x7b' (by decide)),
            if_neg (digitChar_ne d hd '-' (by decide)),
            if_pos (isDigitChar_digitChar d hd)]
          rw [show digitChar d :: (tl ++ rest) = natChars i.toNat ++ rest
            from by rw [heq]; rfl]
          rw [parseNat_natChars i.toNat rest hrest]
          simp only [Option.map_some']
          rw [show ((i.toNat : Nat) : Int) = i from by omega]
      | str s =>
        rw [show jsonStringify (Json.str s) ++ rest = '"' :: (escapeChars s ++ '"' :: rest)
          from by rw [jsonStringify]; simp]
        rw [parseVal_succ, if_neg (by decide), if_neg (by decide), if_neg (by decide),
          if_pos rfl, parseStr_escape]
        rfl
      | arr xs =>
        cases xs with
        | nil =>
          rw [show jsonStringify (Json.arr []) ++ rest = '[' :: ']' :: rest
            from by rw [jsonStringify]; rfl]
          rw [parseVal_succ, if_neg (by decide), if_neg (by decide), if_neg (by decide),
            if_neg (by decide), if_pos rfl, if_pos (by rw [List.head?_cons]),
            List.tail_cons]
        | cons x t =>
          rw [show jsonStringify (Json.arr (x :: t)) ++ rest =
            '[' :: (jsonStringify x ++ (stringifyArrTail t ++ ']' :: rest))
            from by rw [jsonStringify]; simp]
          rw [parseVal_succ, if_neg (by decide), if_neg (by decide), if_neg (by decide),
            if_neg (by decide), if_pos rfl]
          obtain ⟨ch, tl, hch, hne⟩ := stringify_head x
          rw [if_neg (by
            rw [hch]
            simp only [List.cons_append, List.head?_cons, Option.some.injEq]
            exact hne)]
          rw [ihA x t rest (by rw [jM, jMA_cons] at hj; rw [jMA_cons]; omega)]
          rfl
      | obj kvs =>
        cases kvs with
        | nil =>
          rw [show jsonStringify (Json.obj []) ++ rest = '\x7b' :: '\x7d' :: rest
            from by rw [jsonStringify]; rfl]
          rw [parseVal_succ, if_neg (by decide), if_neg (by decide), if_neg (by decide),
            if_neg (by decide), if_neg (by decide), if_pos rfl,
            if_pos (by rw [List.head?_cons]), List.tail_cons]
        | cons kv t =>
          obtain ⟨k, v⟩ := kv
          rw [show jsonStringify (Json.obj ((k, v) :: t)) ++ rest =
            '\x7b' :: (stringifyMember k v ++ (stringifyObjTail t ++ '\x7d' :: rest))
            from by rw [jsonStringify]; simp]
          rw [parseVal_succ, if_neg (by decide), if_neg (by decide), if_neg (by decide),
            if_neg (by decide), if_neg (by decide), if_pos rfl]
          rw [if_neg (by
            rw [stringifyMember]
            simp only [List.cons_append, List.head?_cons, Option.some.injEq]
            decide)]
          rw [ihO k v t rest (by rw [jM, jMO_cons] at hj; rw [jMO_cons]; omega)]
          rfl
    · intro x t rest hb
      have hnd : headNotDigit (stringifyArrTail t ++ ']' :: rest) := by
        cases t with
        | nil =>
          rw [stringifyArrTail, List.nil_append]
          exact (show isDigitChar ']' = false by decide)
        | cons y t' =>
          rw [stringifyArrTail]
          simp only [List.cons_append, List.append_assoc]
          exact (show isDigitChar ',' = false by decide)
      rw [parseArrItems_succ,
        ihV x (stringifyArrTail t ++ ']' :: rest) (by rw [jMA_cons] at hb; omega) hnd]
      simp only [Option.some_bind]
      cases t with
      | nil =>
        rw [show stringifyArrTail ([] : List Json) ++ ']' :: rest = ']' :: rest
          from by rw [stringifyArrTail]; rfl]
        rw [if_pos (by rw [List.head?_cons]), List.tail_cons]
      | cons y t' =>
        rw [show stringifyArrTail (y :: t') ++ ']' :: rest =
          ',' :: (jsonStringify y ++ (stringifyArrTail t' ++ ']' :: rest))
          from by rw [stringifyArrTail]; simp]
        rw [if_neg (by rw [List.head?_cons]; decide),
          if_pos (by rw [List.head?_cons]), List.tail_cons,
          ihA y t' rest (by rw [jMA_cons, jMA_cons] at hb; rw [jMA_cons]; omega)]
        rfl
    · intro k v t rest hb
      have hnd : headNotDigit (stringifyObjTail t ++ '\x7d' :: rest) := by
        cases t with
        | nil =>
          rw [stringifyObjTail, List.nil_append]
          exact (show isDigitChar '\x7d' = false by decide)
        | cons kv2 t' =>
          obtain ⟨k2, v2⟩ := kv2
          rw [stringifyObjTail]
          simp only [List.cons_append, List.append_assoc]
          exact (show isDigitChar ',' = false by decide)
      rw [show stringifyMember k v ++ (stringifyObjTail t ++ '\x7d' :: rest) =
        '"' :: (escapeChars k ++ '"' ::
          (':' :: (jsonStringify v ++ (stringifyObjTail t ++ '\x7d' :: rest))))
        from by rw [stringifyMember]; simp]
      rw [parseObjItems_succ, if_pos (by rw [List.head?_cons]), List.tail_cons,
        parseStr_escape]
      simp only [Option.some_bind]
      rw [if_pos (by rw [List.head?_cons]), List.tail_cons,
        ihV v (stringifyObjTail t ++ '\x7d' :: rest) (by rw [jMO_cons] at hb; omega) hnd]
      simp only [Option.some_bind]
      cases t with
      | nil =>
        rw [show stringifyObjTail ([] : List (List Char × Json)) ++ '\x7d' :: rest =
          '\x7d' :: rest from by rw [stringifyObjTail]; rfl]
        rw [if_pos (by rw [List.head?_cons]), List.tail_cons]
      | cons kv2 t' =>
        obtain ⟨k2, v2⟩ := kv2
        rw [show stringifyObjTail ((k2, v2) :: t') ++ '\x7d' :: rest =
          ',' :: (stringifyMember k2 v2 ++ (stringifyObjTail t' ++ '\x7d' :: rest))
          from by rw [stringifyObjTail]; simp]
        rw [if_neg (by rw [List.head?_cons]; decide),
          if_pos (by rw [List.head?_cons]), List.tail_cons,
          ihO k2 v2 t' rest (by rw [jMO_cons, jMO_cons] at hb; rw [jMO_cons]; omega)]
        rfl

/-- The fuel needed by a value is dominated by its rendered length
(the cap argument only drives the induction). -/
theorem jM_le_len_aux : ∀ n : Nat,
    (∀ j : Json, jM j ≤ n → jM j ≤ (jsonStringify j).length) ∧
    (∀ (x : Json) (t : List Json), jMA (x :: t) ≤ n →
      jMA (x :: t) ≤ (jsonStringify x).length + (stringifyArrTail t).length + 1) ∧
    (∀ (k : List Char) (v : Json) (t : List (List Char × Json)), jMO ((k, v) :: t) ≤ n →
      jMO ((k, v) :: t) ≤ (stringifyMember k v).length + (stringifyObjTail t).length + 1) := by
  intro n
  induction n with
  | zero =>
    refine ⟨fun j hj => ?_, fun x t hb => ?_, fun k v t hb => ?_⟩
    · have := jM_pos j
      omega
    · rw [jMA_cons] at hb
      omega
    · rw [jMO_cons] at hb
      omega
  | succ n ih =>
    obtain ⟨ihV, ihA, ihO⟩ := ih
    refine ⟨?_, ?_, ?_⟩
    · intro j hj
      cases j with
      | null =>
        rw [jM, show jsonStringify Json.null = ['n', 'u', 'l', 'l'] from by rw [jsonStringify]]
        simp
      | bool b =>
        cases b with
        | true =>
          rw [jM, show jsonStringify (Json.bool true) = ['t', 'r', 'u', 'e']
            from by rw [jsonStringify]]
          simp
        | false =>
          rw [jM, show jsonStringify (Json.bool false) = ['f', 'a', 'l', 's', 'e']
            from by rw [jsonStringify]]
          simp
      | num i =>
        rw [jM, show jsonStringify (Json.num i) = intChars i from by rw [jsonStringify],
          intChars]
        by_cases hi : i < 0
        · rw [if_pos hi]
          simp
        · rw [if_neg hi]
          obtain ⟨d, tl, heq, _⟩ := natChars_head i.toNat
          rw [heq]
          simp
      | str s =>
        rw [jM, show jsonStringify (Json.str s) = '"' :: (escapeChars s ++ ['"'])
          from by rw [jsonStringify]; rfl]
        simp
      | arr xs =>
        cases xs with
        | nil =>
          rw [jM, jMA, show jsonStringify (Json.arr []) = ['[', ']'] from by rw [jsonStringify]]
          simp
        | cons x t =>
          rw [jM] at hj ⊢
          have hlen : (jsonStringify (Json.arr (x :: t))).length =
              (jsonStringify x).length + (stringifyArrTail t).length + 2 := by
            rw [show jsonStringify (Json.arr (x :: t)) =
              '[' :: ((jsonStringify x ++ stringifyArrTail t) ++ [']'])
              from by rw [jsonStringify]; rfl]
            simp [List.length_append]
            omega
          rw [hlen]
          have := ihA x t (by omega)
          omega
      | obj kvs =>
        cases kvs with
        | nil =>
          rw [jM, jMO, show jsonStringify (Json.obj []) = ['\x7b', '\x7d']
            from by rw [jsonStringify]]
          simp
        | cons kv t =>
          obtain ⟨k, v⟩ := kv
          rw [jM] at hj ⊢
          have hlen : (jsonStringify (Json.obj ((k, v) :: t))).length =
              (stringifyMember k v).length + (stringifyObjTail t).length + 2 := by
            rw [show jsonStringify (Json.obj ((k, v) :: t)) =
              '\x7b' :: ((stringifyMember k v ++ stringifyObjTail t) ++ ['\x7d'])
              from by rw [jsonStringify]; rfl]
            simp [List.length_append]
            omega
          rw [hlen]
          have := ihO k v t (by omega)
          omega
    · intro x t hb
      rw [jMA_cons] at hb ⊢
      have hx := ihV x (by omega)
      cases t with
      | nil =>
        rw [jMA]
        simp only [Nat.max_zero]
        omega
      | cons y t' =>
        have ht := ihA y t' (by rw [jMA_cons] at hb ⊢; omega)
        have hlen : (stringifyArrTail (y :: t')).length =
            (jsonStringify y).length + (stringifyArrTail t').length + 1 := by
          rw [show stringifyArrTail (y :: t') = ',' :: (jsonStringify y ++ stringifyArrTail t')
            from by rw [stringifyArrTail]; rfl]
          simp [List.length_append]
        rw [hlen]
        omega
    · intro k v t hb
      rw [jMO_cons] at hb ⊢
      have hx := ihV v (by omega)
      cases t with
      | nil =>
        rw [jMO]
        simp only [Nat.max_zero]
        have hm : (jsonStringify v).length ≤ (stringifyMember k v).length := by
          rw [show stringifyMember k v =
            '"' :: (escapeChars k ++ ('"' :: ':' :: jsonStringify v))
            from by rw [stringifyMember]; rfl]
          simp [List.length_append]
          omega
        omega
      | cons kv2 t' =>
        obtain ⟨k2, v2⟩ := kv2
        have ht := ihO k2 v2 t' (by rw [jMO_cons] at hb ⊢; omega)
        have hm : (jsonStringify v).length ≤ (stringifyMember k v).length := by
          rw [show stringifyMember k v =
            '"' :: (escapeChars k ++ ('"' :: ':' :: jsonStringify v))
            from by rw [stringifyMember]; rfl]
          simp [List.length_append]
          omega
        have hlen : (stringifyObjTail ((k2, v2) :: t')).length =
            (stringifyMember k2 v2).length + (stringifyObjTail t').length + 1 := by
          rw [show stringifyObjTail ((k2, v2) :: t') =
            ',' :: (stringifyMember k2 v2 ++ stringifyObjTail t')
            from by rw [stringifyObjTail]; rfl]
          simp [List.length_append]
        rw [hlen]
        omega

/-- `JSON.parse` inverts `JSON.stringify` on the model. -/
theorem jsonParse_stringify (j : Json) : jsonParse (jsonStringify j) = some j := by
  unfold jsonParse
  have hfuel : jM j ≤ (jsonStringify j).length + 1 := by
    have := (jM_le_len_aux (jM j)).1 j (le_refl _)
    omega
  have h := (parse_stringify_main ((jsonStringify j).length + 1)).1 j [] hfuel trivial
  rw [List.append_nil] at h
  rw [h]
  simp

/-- Entry-list round-trip: decoding after the encoder's entry loop
yields one `(id, clock, state)` triple per listed client, in order. -/
theorem decodeEntryList_encodeEntryList :
    ∀ (clients : List Nat) (aw : Awareness) (states : Nat → Option Json) (rest : List Nat),
      decodeAwarenessEntryList clients.length
          (encodeAwarenessEntryList aw states clients ++ rest) =
        some (clients.map (fun c => (c, clockOf aw c, jsOrNull (states c))), rest) := by
  intro clients
  induction clients with
  | nil => intro aw states rest; rfl
  | cons c t ih =>
    intro aw states rest
    rw [encodeAwarenessEntryList, List.length_cons, decodeAwarenessEntryList]
    simp only [List.append_assoc]
    rw [readVarUint_writeVarUint]
    simp only [Option.some_bind]
    rw [readVarUint_writeVarUint]
    simp only [Option.some_bind]
    rw [readVarString_writeVarString]
    simp only [Option.some_bind]
    rw [jsonParse_stringify]
    simp only [Option.some_bind]
    rw [ih aw states rest]
    simp only [Option.map_some', List.map_cons]

/-- C8: decoding an encoded awareness update reproduces exactly one
`(peerId, clock, state)` triple per listed client, in list order, with
the client's meta clock and its `states` entry (or JSON `null` when it
has no entry).  Each listed client is assumed to have a meta entry
(the source dereferences it unguardedly) and any present state to be
truthy (the claim's state values — objects, including empty and nested
ones — all are; the encoder's `|| null` read would null out a falsy
one). -/
theorem encode_decode_roundtrip (aw : Awareness) (clients : List Nat)
    (hmeta : ∀ c ∈ clients, (aw.meta c).isSome = true)
    (hstates : ∀ c ∈ clients,
      (match aw.states c with | some v => jsTruthy v | none => true) = true) :
    decodeAwarenessUpdate (encodeAwarenessUpdate aw clients aw.states) =
      some (clients.map (fun c => (c, clockOf aw c, (aw.states c).getD Json.null))) := by
  unfold encodeAwarenessUpdate decodeAwarenessUpdate
  rw [readVarUint_writeVarUint]
  simp only [Option.some_bind]
  have h := decodeEntryList_encodeEntryList clients aw aw.states []
  rw [List.append_nil] at h
  rw [h]
  simp only [Option.map_some']
  congr 1
  apply List.map_congr_left
  intro c hc
  have hs := hstates c hc
  cases hv : aw.states c with
  | none => rfl
  | some v =>
    rw [hv] at hs
    rw [show jsOrNull (some v) = if jsTruthy v then v else Json.null from rfl, if_pos hs]
    rfl

/-- Witness for C8 at `awExample`: an online client with a nested
object state and an offline client with only a meta entry. -/
theorem encode_decode_roundtrip_witness :
    decodeAwarenessUpdate (encodeAwarenessUpdate awExample [0, 1] awExample.states) =
      some ([0, 1].map (fun c => (c, clockOf awExample c, (awExample.states c).getD Json.null))) :=
  encode_decode_roundtrip awExample [0, 1] (by decide) (by decide)
